import Mathlib

/-!
Verification of the libft documentation extraction-and-merge pipeline
(`src/docs/src/generator.rs`, with the tag classifier also present in
`src/docs/src/parser.rs`).

Modelling conventions (shallow embedding):
* File-system state is explicit: `FsTree` carries the `WalkDir` enumeration of
  the source tree (in walk order, errored entries already dropped, matching
  `filter_map(|e| e.ok())`), the `read_dir` listing of the categories root,
  and the stream of manual JSON files found by `load_manuals`' candidate scan.
* A file read (`fs::read_to_string`) yields `Option String`; `none` models an
  I/O error.
* The `regex` and `serde_json`/`markdown` crates are external; their calls are
  modelled by a `RegexOracle` of uninterpreted functions.  Where a claim
  depends on the shape of a regex match, the pattern's language is encoded as
  an explicit predicate on the oracle's output (see `grp1Lang`).
* `HashMap<String, FunctionMetadata>` is modelled as an association list with
  `insertFn` implementing `HashMap::insert` (replace-or-append).
* Strings are Lean `String`s; Rust byte lengths (`str::len`) are
  `String.utf8ByteSize`.
-/

/-! ## Character-level string helpers (Rust `str` operations) -/

/-- `str::split(sep)` on the character list: always returns at least one
(possibly empty) group; groups never contain the separator. -/
def splitOnCharData (sep : Char) : List Char → List (List Char)
  | [] => [[]]
  | a :: as =>
    if a = sep then [] :: splitOnCharData sep as
    else
      match splitOnCharData sep as with
      | [] => [[a]]
      | g :: gs => (a :: g) :: gs

def splitOnChar (sep : Char) (s : String) : List String :=
  (splitOnCharData sep s.data).map String.mk

/-- `path.split('/')`. -/
def splitSlash (s : String) : List String := splitOnChar '/' s

/-- The first segment of a `/`-separated string (what
`s.split('/').next()` yields, every string having at least one segment). -/
def takeUntilSlash : List Char → List Char
  | [] => []
  | c :: cs => if c = '/' then [] else c :: takeUntilSlash cs

def firstSegment (s : String) : String := String.mk (takeUntilSlash s.data)

/-- `category_path.split('/').next().unwrap_or("misc")` from the source. -/
def firstSegOr (s : String) : String :=
  match splitSlash s with
  | [] => "misc"
  | h :: _ => h

/-- `Vec::join(sep)`. -/
def joinSep (sep : String) : List String → String
  | [] => ""
  | [p] => p
  | p :: q :: rest => p ++ sep ++ joinSep sep (q :: rest)

/-- `str::trim_start_matches(c)`: drop every leading occurrence of `c`. -/
def dropLeadingChar (c : Char) (s : String) : String :=
  String.mk (s.data.dropWhile (fun a => a == c))

/-- `str::trim_end_matches(c)`: drop every trailing occurrence of `c`. -/
def dropTrailingChar (c : Char) (s : String) : String :=
  String.mk ((s.data.reverse.dropWhile (fun a => a == c)).reverse)

/-- Decidable infix test on lists (needle first). -/
def listIsInfix (pat : List Char) : List Char → Bool
  | [] => pat.isEmpty
  | c :: t => pat.isPrefixOf (c :: t) || listIsInfix pat t

/-- `str::contains(pat)`: substring search. -/
def strContains (s pat : String) : Bool := listIsInfix pat.data s.data

/-- `str::trim()`: strip leading and trailing whitespace (character-level,
so that concrete runs reduce in the kernel). -/
def strTrim (s : String) : String :=
  String.mk
    (((s.data.dropWhile Char.isWhitespace).reverse.dropWhile
      Char.isWhitespace).reverse)

/-- `str::starts_with(pre)` (character-level). -/
def strStartsWith (s pre : String) : Bool := pre.data.isPrefixOf s.data

/-- `str::lines()`: split on `'\n'`, drop a final empty line, strip one
trailing `'\r'` per line. -/
def rustLines (s : String) : List String :=
  let parts := splitOnChar '\n' s
  let parts := if parts.getLastD "x" == "" then parts.dropLast else parts
  parts.map (fun l =>
    if l.data.getLastD 'x' == '\r' then String.mk l.data.dropLast else l)

/-! ## Path helpers (`std::path::Path`) -/

/-- The `Component` view of a path: empty segments and `.` are not
`Normal` components and are dropped (paths in scope are plain relative or
rooted `/`-joined names). -/
def pathComponents (p : String) : List String :=
  (splitSlash p).filter (fun s => !s.isEmpty && s != ".")

/-- `Path::strip_prefix(root)`, on components. -/
def stripPrefixComps (root p : String) : Option (List String) :=
  let rc := pathComponents root
  let pc := pathComponents p
  if rc.isPrefixOf pc then some (pc.drop rc.length) else none

def lastComponent (p : String) : Option String := (pathComponents p).getLast?

/-- Split a file name at its final dot: `Path::file_stem`/`Path::extension`
semantics (a leading-dot-only name has no extension). -/
def stemExt (name : String) : String × Option String :=
  match splitOnChar '.' name with
  | [] => (name, none)
  | [_] => (name, none)
  | parts =>
    let before := String.intercalate "." parts.dropLast
    let after := parts.getLastD ""
    if before.isEmpty then (name, none) else (before, some after)

def extension (p : String) : Option String :=
  (lastComponent p).bind (fun n => (stemExt n).2)

def fileStemOpt (p : String) : Option String :=
  (lastComponent p).map (fun n => (stemExt n).1)

/-! ## Data model (`LibraryMetadata`, `FunctionMetadata`) -/

structure Parameter where
  name : String
  type_name : String
  description : String
deriving DecidableEq, Repr

structure Example where
  title : String
  code : String
  output : Option String
deriving DecidableEq, Repr

structure FunctionMetadata where
  name : String
  category : String
  category_path : String
  tags : List String
  prototype : String
  description : String
  parameters : List Parameter
  return_value : String
  examples : List Example
  complexity : Option String
  notes : List String
  see_also : List String
  updated_at : Option String
  author_role : Option String
  related : List String
  manual_path : Option String
  manual_html : Option String
deriving DecidableEq, Repr

/-- `HashMap<String, FunctionMetadata>` as an association list. -/
abbrev Functions := List (String × FunctionMetadata)

def fnKeys (m : Functions) : List String := m.map Prod.fst

def containsKey (m : Functions) (k : String) : Bool := m.any (fun p => p.1 == k)

/-- `HashMap::insert`: replace the binding if the key is present, otherwise
add it. -/
def insertFn (m : Functions) (k : String) (v : FunctionMetadata) : Functions :=
  if containsKey m k then m.map (fun p => if p.1 == k then (k, v) else p)
  else m ++ [(k, v)]

structure LibraryMetadata where
  name : String
  version : String
  description : String
  author : String
  categories : List String
  functions : Functions
  order : List String
deriving DecidableEq, Repr

/-! ## External-crate oracle and file-system model -/

/-- Uninterpreted models of the external `regex`, `serde_json` and `markdown`
crates.  `findProtoN name content` is the text of
`Regex::find` for the N-th prototype pattern built from `name`;
`findDescN content` is capture group 1 of the N-th description pattern;
`headerCaptures content` is the `captures_iter` stream of the header
declaration regex, as `(whole match, capture group 1)` pairs. -/
structure RegexOracle where
  findProto1 : String → String → Option String
  findProto2 : String → String → Option String
  findProto3 : String → String → Option String
  findDesc1 : String → Option String
  findDesc2 : String → Option String
  findDesc3 : String → Option String
  headerCaptures : String → List (String × String)
  parseJson : String → Option FunctionMetadata
  toHtml : String → String

/-- One entry of the `WalkDir` enumeration.  `content` is the result of
`fs::read_to_string`; `none` models an I/O error. -/
structure FsFile where
  path : String
  isFile : Bool
  content : Option String

/-- One JSON file met by `load_manuals`' candidate-directory scan.
`docRead rel` is the read result of `json_dir/rel` (the `manual_path`
resolution). -/
structure ManualFile where
  path : String
  content : Option String
  docRead : String → Option String

/-- The file-system state an invocation sees. `walkEntries` is the
`WalkDir(source_dir)` stream in walk order (errored entries dropped);
`rootSubdirs` the directory names `read_dir(categories_root)` yields;
`rootReadable = false` makes that `read_dir` call fail; `manualFiles` the
concatenated JSON-file streams of the six candidate manual directories. -/
structure FsTree where
  walkEntries : List FsFile
  rootIsDir : Bool
  rootReadable : Bool
  rootSubdirs : List String
  manualFiles : List ManualFile

structure ParserCfg where
  source_dir : String
  libftIsDir : Bool

/-! ## `LibftParser` helpers from `generator.rs` -/

def categories_root (cfg : ParserCfg) : String :=
  if cfg.libftIsDir then cfg.source_dir ++ "/libft" else cfg.source_dir

def EXCLUDE : List String :=
  ["docs", "doc", "minilibx-linux", "target", "dist", "website", "bin",
   "obj", "build", ".git", ".github", ".idea", ".vscode"]

def pathUnderDir (dir p : String) : Bool :=
  (pathComponents dir).isPrefixOf (pathComponents p) &&
    (pathComponents dir).length < (pathComponents p).length

/-- `dir_has_code`: some file below `dir` has extension `c` or `h` (the walk
over `dir` is the restriction of the full enumeration; the depth-64 cap is
not modelled, no tree in scope is that deep). -/
def dir_has_code (fs : FsTree) (dir : String) : Bool :=
  fs.walkEntries.any (fun e =>
    e.isFile && pathUnderDir dir e.path &&
      (extension e.path == some "c" || extension e.path == some "h"))

def insertSorted (x : String) : List String → List String
  | [] => [x]
  | y :: ys => if x ≤ y then x :: y :: ys else y :: insertSorted x ys

/-- `Vec::sort` (stable ascending; equal strings are identical). -/
def sortStrings (l : List String) : List String := l.foldr insertSorted []

/-- `Vec::dedup`: drop adjacent duplicates. -/
def dedupAdj : List String → List String
  | [] => []
  | [a] => [a]
  | a :: b :: rest =>
    if a == b then dedupAdj (b :: rest) else a :: dedupAdj (b :: rest)

def discover_categories (cfg : ParserCfg) (fs : FsTree) :
    Except Unit (List String) :=
  if fs.rootIsDir then
    if fs.rootReadable then
      let cats := fs.rootSubdirs.filter (fun n =>
        !(strStartsWith n ".") && !(EXCLUDE.contains n) &&
          dir_has_code fs (categories_root cfg ++ "/" ++ n))
      Except.ok (dedupAdj (sortStrings cats))
    else Except.error ()
  else Except.ok []

def extract_category_from_path (cfg : ParserCfg) (path : String) : String :=
  match stripPrefixComps (categories_root cfg) path with
  | some (first :: _) => first
  | _ => "misc"

def extract_category_path_from_path (cfg : ParserCfg) (path : String) :
    String :=
  match stripPrefixComps (categories_root cfg) path with
  | some rel =>
    if rel.isEmpty then extract_category_from_path cfg path
    else
      let parts := rel.dropLast.filter (fun c => c != "..")
      let p := joinSep "/" parts
      if !p.isEmpty then p else extract_category_from_path cfg path
  | none => extract_category_from_path cfg path

/-! ## Prototype / tag / description extraction -/

/-- The acceptance gate of `extract_function_prototype`: trim delimiters and
whitespace, accept a non-empty result strictly longer (in bytes) than the
function name. -/
def acceptProto (funcName m : String) : Option String :=
  let proto := strTrim (dropTrailingChar ';' (dropTrailingChar '{' m))
  if !proto.isEmpty && proto.utf8ByteSize > funcName.utf8ByteSize then
    some proto
  else none

def protoPlaceholder (funcName : String) : String :=
  "/* Function: " ++ funcName ++ " */"

def extract_function_prototype (oracle : RegexOracle)
    (content funcName : String) : String :=
  (((oracle.findProto1 funcName content).bind (acceptProto funcName)) <|>
   ((oracle.findProto2 funcName content).bind (acceptProto funcName)) <|>
   ((oracle.findProto3 funcName content).bind (acceptProto funcName))).getD
    (protoPlaceholder funcName)

/-- The comment-cleaning step of `extract_description`: per line trim, strip
leading `*`s, trim again; drop empty and decorative lines; join with
single spaces. -/
def cleanComment (comment : String) : String :=
  let kept := ((rustLines comment).map
      (fun l => strTrim (dropLeadingChar '*' (strTrim l)))).filter
    (fun l => !l.isEmpty && !strContains l "****************" &&
      !strContains l ":::      ::::::::")
  String.intercalate " " kept

def descPlaceholder : String := "No description available."

def acceptDesc (cap : Option String) : Option String :=
  cap.bind (fun comment =>
    let desc := cleanComment comment
    if !desc.isEmpty && desc.utf8ByteSize > 10 then some desc else none)

def extract_description (oracle : RegexOracle) (content : String) : String :=
  ((acceptDesc (oracle.findDesc1 content)) <|>
   (acceptDesc (oracle.findDesc2 content)) <|>
   (acceptDesc (oracle.findDesc3 content))).getD descPlaceholder

def tagIf (b : Bool) (t : String) : List String := if b then [t] else []

namespace Generator

/-- The name/content-driven tag pushes of `generate_tags` in `generator.rs`
(the binary's copy), before the difficulty tag is appended. -/
def baseTags (func_name content : String) : List String :=
  tagIf (strStartsWith func_name "ft_str") "string" ++
    tagIf (strStartsWith func_name "ft_mem") "memory" ++
    tagIf (strStartsWith func_name "ft_is") "validation" ++
    tagIf (strStartsWith func_name "ft_to") "conversion" ++
    tagIf (strContains func_name "printf") "output" ++
    tagIf (strContains func_name "scanf") "input" ++
    tagIf (strContains func_name "list") "linked_list" ++
    tagIf (strContains content "malloc") "allocation" ++
    tagIf (strContains content "free") "cleanup" ++
    tagIf (strContains content "while" || strContains content "for")
      "iteration"

/-- `generate_tags` as written in `generator.rs` (the binary's copy). -/
def generate_tags (func_name content : String) : List String :=
  let tags := baseTags func_name content
  tags ++
    [if tags.contains "allocation" then "intermediate" else "basic"]

end Generator

namespace ParserSrc

/-- The name/content-driven tag pushes of `generate_tags` in `parser.rs`
(the library's copy), before the difficulty tag is appended. -/
def baseTags (func_name content : String) : List String :=
  tagIf (strStartsWith func_name "ft_str") "string" ++
    tagIf (strStartsWith func_name "ft_mem") "memory" ++
    tagIf (strStartsWith func_name "ft_is") "validation" ++
    tagIf (strStartsWith func_name "ft_to") "conversion" ++
    tagIf (strContains func_name "printf") "output" ++
    tagIf (strContains func_name "scanf") "input" ++
    tagIf (strContains func_name "list") "linked_list" ++
    tagIf (strContains func_name "queue") "queue" ++
    tagIf (strContains func_name "vector") "vector" ++
    tagIf (strContains func_name "matrix") "matrix" ++
    tagIf (strContains func_name "sort") "sorting" ++
    tagIf (strContains func_name "search") "searching" ++
    tagIf (strContains func_name "map") "data_structure" ++
    tagIf (strContains func_name "window") "graphics" ++
    tagIf (strContains func_name "render") "rendering" ++
    tagIf (strContains func_name "pool" || strContains func_name "arena" ||
      strContains func_name "slab") "memory_management" ++
    tagIf (strContains content "malloc") "allocation" ++
    tagIf (strContains content "free") "cleanup" ++
    tagIf (strContains content "while" || strContains content "for")
      "iteration" ++
    tagIf (strContains content "recursive" || strContains content "recursion")
      "recursion" ++
    tagIf (strContains content "mlx_") "minilibx" ++
    tagIf (strContains content "pthread") "threading"

/-- `generate_tags` as written in `parser.rs` (the library's copy). -/
def generate_tags (func_name content : String) : List String :=
  let tags := baseTags func_name content
  tags ++
    [if tags.contains "recursion" || tags.contains "threading" then "advanced"
     else if tags.contains "allocation" || tags.contains "data_structure" then
       "intermediate"
     else "basic"]

end ParserSrc

/-! ## Record construction and the aggregation pipeline -/

def returnValuePlaceholder : String :=
  "Return value description not available."

def defaultExamples (funcName : String) : List Example :=
  [{ title := "Basic usage of " ++ funcName,
     code := "// Example usage of " ++ funcName ++
       "\n// TODO: Add real example",
     output := none }]

/-- The record `parse_c_file` builds (it returns `Ok(Some(..))` whenever the
read succeeded). -/
def parse_c_file_meta (cfg : ParserCfg) (oracle : RegexOracle)
    (path content filename : String) : FunctionMetadata :=
  { name := filename
    category := extract_category_from_path cfg path
    category_path := extract_category_path_from_path cfg path
    tags := Generator.generate_tags filename content
    prototype := extract_function_prototype oracle content filename
    description := extract_description oracle content
    parameters := []
    return_value := returnValuePlaceholder
    examples := defaultExamples filename
    complexity := none
    notes := []
    see_also := []
    updated_at := none
    author_role := none
    related := []
    manual_path := none
    manual_html := none }

/-- The record `parse_header_file` builds for a declaration match. -/
def header_meta (cfg : ParserCfg) (oracle : RegexOracle)
    (path content fname whole : String) : FunctionMetadata :=
  { name := fname
    category := extract_category_from_path cfg path
    category_path := extract_category_path_from_path cfg path
    tags := Generator.generate_tags fname content
    prototype := dropTrailingChar ';' (strTrim whole)
    description := extract_description oracle content
    parameters := []
    return_value := returnValuePlaceholder
    examples := defaultExamples fname
    complexity := none
    notes := []
    see_also := []
    updated_at := none
    author_role := none
    related := []
    manual_path := none
    manual_html := none }

/-- Mutable state of `parse`: the function map and the discovery order. -/
structure PState where
  functions : Functions
  order : List String
deriving DecidableEq, Repr

/-- Insert a record under `name` and append `name` to the order unless
already present (the shared `order`/`functions.insert` code shape). -/
def recordNew (st : PState) (name : String) (meta : FunctionMetadata) :
    PState :=
  { functions := insertFn st.functions name meta,
    order := if st.order.contains name then st.order
      else st.order ++ [name] }

/-- One captured declaration inside `parse_header_file`'s loop. -/
def headerStep (cfg : ParserCfg) (oracle : RegexOracle)
    (path content : String) (st : PState) (cap : String × String) : PState :=
  if containsKey st.functions cap.2 then st
  else recordNew st cap.2 (header_meta cfg oracle path content cap.2 cap.1)

def headerFold (cfg : ParserCfg) (oracle : RegexOracle)
    (path content : String) : PState → List (String × String) → PState
  | st, [] => st
  | st, cap :: rest =>
    headerFold cfg oracle path content
      (headerStep cfg oracle path content st cap) rest

/-- `parse_header_file` (the read already resolved by the caller; an `Err`
read propagates in `fileStep` below, mirroring the `?`). -/
def parse_header_file (cfg : ParserCfg) (oracle : RegexOracle)
    (path content : String) (st : PState) : PState :=
  headerFold cfg oracle path content st (oracle.headerCaptures content)

/-- One `WalkDir` entry of `parse`'s main loop.  `.c` files whose lossy path
contains `"main.c"` fall through both branches; a failed `.c` read is
skipped (`if let Ok`), a failed `.h` read aborts (`?`). -/
def fileStep (cfg : ParserCfg) (oracle : RegexOracle) (st : PState)
    (e : FsFile) : Except Unit PState :=
  if !e.isFile then Except.ok st
  else
    match extension e.path with
    | none => Except.ok st
    | some ext =>
      if ext == "c" && !strContains e.path "main.c" then
        let filename := (fileStemOpt e.path).getD "unknown"
        if containsKey st.functions filename then Except.ok st
        else
          match e.content with
          | none => Except.ok st
          | some content =>
            Except.ok (recordNew st filename
              (parse_c_file_meta cfg oracle e.path content filename))
      else if ext == "h" then
        match e.content with
        | none => Except.error ()
        | some content =>
          Except.ok (parse_header_file cfg oracle e.path content st)
      else Except.ok st

def fileFold (cfg : ParserCfg) (oracle : RegexOracle) :
    PState → List FsFile → Except Unit PState
  | st, [] => Except.ok st
  | st, e :: es =>
    match fileStep cfg oracle st e with
    | Except.error u => Except.error u
    | Except.ok st' => fileFold cfg oracle st' es

/-- The implementation/header walk of `parse` (lines 146-182). -/
def parseFiles (cfg : ParserCfg) (oracle : RegexOracle) (fs : FsTree) :
    Except Unit PState :=
  fileFold cfg oracle { functions := [], order := [] } fs.walkEntries

/-- `load_manuals`' per-JSON-file handling: skip unreadable or malformed
files; fall back to the file stem for an empty name; copy `category` into an
empty `category_path` and derive `category` from `category_path`, each only
when the source field is non-empty; attach the rendered manual document. -/
def load_manuals_step (oracle : RegexOracle) (out : Functions)
    (f : ManualFile) : Functions :=
  match f.content with
  | none => out
  | some txt =>
    match oracle.parseJson txt with
    | none => out
    | some meta0 =>
      let meta1 :=
        if (strTrim meta0.name).isEmpty then
          match fileStemOpt f.path with
          | some stem => { meta0 with name := stem }
          | none => meta0
        else meta0
      let meta2 :=
        if (strTrim meta1.category_path).isEmpty &&
            !(strTrim meta1.category).isEmpty
        then { meta1 with category_path := meta1.category }
        else meta1
      let meta3 :=
        if (strTrim meta2.category).isEmpty &&
            !(strTrim meta2.category_path).isEmpty
        then { meta2 with category := firstSegOr meta2.category_path }
        else meta2
      let meta4 :=
        match meta3.manual_path with
        | some manRel =>
          match f.docRead manRel with
          | some md => { meta3 with manual_html := some (oracle.toHtml md) }
          | none => meta3
        | none => meta3
      insertFn out meta4.name meta4

def load_manuals (oracle : RegexOracle) (fs : FsTree) : Functions :=
  fs.manualFiles.foldl (load_manuals_step oracle) []

/-- The unconditional category fill-ins of `parse`'s manual-merge loop
(lines 189-194): unlike `load_manuals`, the copies are not guarded on the
source field being non-empty. -/
def merge_manual_fix (meta : FunctionMetadata) : FunctionMetadata :=
  let m1 :=
    if (strTrim meta.category_path).isEmpty then
      { meta with category_path := meta.category }
    else meta
  if (strTrim m1.category).isEmpty then
    { m1 with category := firstSegOr m1.category_path }
  else m1

/-- One manual override applied by `parse` (lines 188-199): replace the
record unconditionally, appending the name to the order only if absent. -/
def merge_manual_step (st : PState) (nm : String × FunctionMetadata) :
    PState :=
  recordNew st nm.1 (merge_manual_fix nm.2)

def manualFold : PState → List (String × FunctionMetadata) → PState
  | st, [] => st
  | st, nm :: rest => manualFold (merge_manual_step st nm) rest

/-- `LibftParser::parse` (generator.rs lines 137-210): discover categories,
walk implementation and header files, merge manual overrides. -/
def parse (cfg : ParserCfg) (oracle : RegexOracle) (fs : FsTree) :
    Except Unit LibraryMetadata :=
  match discover_categories cfg fs with
  | Except.error u => Except.error u
  | Except.ok categories =>
    match parseFiles cfg oracle fs with
    | Except.error u => Except.error u
    | Except.ok st =>
      let st2 := manualFold st (load_manuals oracle fs)
      Except.ok
        { name := "libft"
          version := "1.0.0"
          description :=
            "42 School C Library - Extended standard library functions"
          author := "dlesieur"
          categories := categories
          functions := st2.functions
          order := st2.order }

/-- The language of the header regex's capture group 1,
`ft_[A-Za-z0-9_]+`: the contract the external regex engine guarantees for
every `headerCaptures` result. -/
def isWordChar (c : Char) : Bool := c.isAlphanum || c == '_'

def grp1Lang (s : String) : Bool :=
  strStartsWith s "ft_" && !(s.data.drop 3).isEmpty &&
    (s.data.drop 3).all isWordChar

/-- Contract of the header declaration regex
`^\s*[A-Za-z_][\w\s\*\(\)]*\s+(ft_[A-Za-z0-9_]+)\s*\([^;\x7b]*\)\s*;`:
group 1 lies in `ft_[A-Za-z0-9_]+`, and the whole match, once trimmed,
starts with a letter or underscore (its first character class). -/
def identStart (c : Char) : Bool := c.isAlpha || c == '_'

def wholeShape (w : String) : Bool :=
  match (strTrim w).data with
  | [] => false
  | c :: _ => identStart c

def HeaderOracleWF (oracle : RegexOracle) : Prop :=
  ∀ content cap, cap ∈ oracle.headerCaptures content →
    grp1Lang cap.2 = true ∧ wholeShape cap.1 = true

/-! ## Association-list lemmas -/

theorem mem_fnKeys {m : Functions} {k : String} :
    k ∈ fnKeys m ↔ containsKey m k = true := by
  induction m with
  | nil => simp [fnKeys, containsKey]
  | cons p t ih =>
    simp only [fnKeys, containsKey, List.map_cons, List.mem_cons,
      List.any_cons, Bool.or_eq_true, beq_iff_eq] at *
    constructor
    · rintro (h | h)
      · exact Or.inl h.symm
      · exact Or.inr (ih.mp h)
    · rintro (h | h)
      · exact Or.inl h.symm
      · exact Or.inr (ih.mpr h)

theorem not_mem_fnKeys {m : Functions} {k : String} :
    k ∉ fnKeys m ↔ containsKey m k = false := by
  rw [← Bool.not_eq_true, ← mem_fnKeys]

theorem fnKeys_insertFn_of_contains {m : Functions} {k : String}
    (v : FunctionMetadata) (h : containsKey m k = true) :
    fnKeys (insertFn m k v) = fnKeys m := by
  simp only [insertFn, h, if_true, fnKeys, List.map_map]
  apply List.map_congr_left
  intro p _
  by_cases hp : p.1 = k
  · simp [Function.comp, hp]
  · simp [Function.comp, hp, beq_iff_eq]

theorem fnKeys_insertFn_of_not_contains {m : Functions} {k : String}
    (v : FunctionMetadata) (h : containsKey m k = false) :
    fnKeys (insertFn m k v) = fnKeys m ++ [k] := by
  simp [insertFn, h, fnKeys]

theorem containsKey_insertFn_self {m : Functions} {k : String}
    (v : FunctionMetadata) : containsKey (insertFn m k v) k = true := by
  rw [← mem_fnKeys]
  cases h : containsKey m k
  · rw [fnKeys_insertFn_of_not_contains v h]; simp
  · rw [fnKeys_insertFn_of_contains v h, mem_fnKeys]; exact h

theorem containsKey_insertFn_mono {m : Functions} {k n : String}
    (v : FunctionMetadata) (h : containsKey m n = true) :
    containsKey (insertFn m k v) n = true := by
  rw [← mem_fnKeys]
  cases hk : containsKey m k
  · rw [fnKeys_insertFn_of_not_contains v hk]
    exact List.mem_append_left _ (mem_fnKeys.mpr h)
  · rw [fnKeys_insertFn_of_contains v hk]
    exact mem_fnKeys.mpr h

theorem lookup_cons_ite (a pk : String) (pv : FunctionMetadata)
    (t : Functions) :
    List.lookup a ((pk, pv) :: t) =
      if a == pk then some pv else List.lookup a t := by
  rw [List.lookup_cons]; cases h : a == pk <;> simp [h]

theorem lookup_append_of_not_contains {m : Functions} {k : String}
    {v : FunctionMetadata} (h : containsKey m k = false) :
    List.lookup k (m ++ [(k, v)]) = some v := by
  induction m with
  | nil => simp [List.lookup]
  | cons p t ih =>
    obtain ⟨pk, pv⟩ := p
    simp only [containsKey, List.any_cons, Bool.or_eq_false_iff] at h
    have hp : pk ≠ k := by simpa using h.1
    have h1 : (k == pk) = false := by
      simp only [beq_eq_false_iff_ne, ne_eq]
      exact fun e => hp e.symm
    rw [List.cons_append, lookup_cons_ite, h1]
    simp only [Bool.false_eq_true, if_false]
    exact ih (by simpa [containsKey] using h.2)

theorem lookup_mapReplace_self {m : Functions} {k : String}
    {v : FunctionMetadata} (h : containsKey m k = true) :
    List.lookup k (m.map (fun p => if p.1 == k then (k, v) else p)) =
      some v := by
  induction m with
  | nil => simp [containsKey] at h
  | cons p t ih =>
    obtain ⟨pk, pv⟩ := p
    by_cases hp : pk = k
    · have hb : (pk == k) = true := by simp [hp]
      simp only [List.map_cons, hb, if_true]
      rw [lookup_cons_ite]
      simp
    · have hb : (pk == k) = false := by simp [hp]
      have hkb : (k == pk) = false := by
        simp only [beq_eq_false_iff_ne, ne_eq]
        exact fun e => hp e.symm
      simp only [List.map_cons, hb, Bool.false_eq_true, if_false]
      rw [lookup_cons_ite, hkb]
      simp only [Bool.false_eq_true, if_false]
      exact ih (by simpa [containsKey, hb] using h)

theorem lookup_insertFn_self {m : Functions} {k : String}
    (v : FunctionMetadata) :
    List.lookup k (insertFn m k v) = some v := by
  unfold insertFn
  cases h : containsKey m k
  · simp only [Bool.false_eq_true, if_false]
    exact lookup_append_of_not_contains h
  · simp only [if_true]
    exact lookup_mapReplace_self h

theorem lookup_append_other {m : Functions} {k n : String}
    (v : FunctionMetadata) (hne : n ≠ k) :
    List.lookup n (m ++ [(k, v)]) = List.lookup n m := by
  have hnk : (n == k) = false := by simp [hne]
  induction m with
  | nil => simp [List.lookup, hnk]
  | cons p t ih =>
    obtain ⟨pk, pv⟩ := p
    rw [List.cons_append, lookup_cons_ite, lookup_cons_ite]
    cases hb : n == pk <;> simp only [Bool.false_eq_true, if_false, if_true]
    exact ih

theorem lookup_mapReplace_other {m : Functions} {k n : String}
    (v : FunctionMetadata) (hne : n ≠ k) :
    List.lookup n (m.map (fun p => if p.1 == k then (k, v) else p)) =
      List.lookup n m := by
  induction m with
  | nil => simp
  | cons p t ih =>
    obtain ⟨pk, pv⟩ := p
    by_cases hp : pk = k
    · have hb : (pk == k) = true := by simp [hp]
      have hnb : (n == pk) = false := by
        simp only [beq_eq_false_iff_ne, ne_eq]
        exact fun e => hne (e.trans hp)
      have hnk : (n == k) = false := by simp [hne]
      simp only [List.map_cons, hb, if_true]
      rw [lookup_cons_ite, lookup_cons_ite, hnb, hnk]
      simp only [Bool.false_eq_true, if_false]
      exact ih
    · have hb : (pk == k) = false := by simp [hp]
      simp only [List.map_cons, hb, Bool.false_eq_true, if_false]
      rw [lookup_cons_ite, lookup_cons_ite]
      cases hnb : n == pk <;> simp only [Bool.false_eq_true, if_false,
        if_true]
      exact ih

theorem lookup_insertFn_other {m : Functions} {k n : String}
    (v : FunctionMetadata) (hne : n ≠ k) :
    List.lookup n (insertFn m k v) = List.lookup n m := by
  unfold insertFn
  cases h : containsKey m k
  · simp only [Bool.false_eq_true, if_false]
    exact lookup_append_other v hne
  · simp only [if_true]
    exact lookup_mapReplace_other v hne

theorem containsKey_of_lookup_some {m : Functions} {n : String}
    {v : FunctionMetadata} (h : List.lookup n m = some v) :
    containsKey m n = true := by
  induction m with
  | nil => simp [List.lookup] at h
  | cons p t ih =>
    obtain ⟨pk, pv⟩ := p
    rw [lookup_cons_ite] at h
    cases hb : n == pk
    · rw [hb] at h
      simp only [Bool.false_eq_true, if_false] at h
      have := ih h
      simp [containsKey, List.any_cons] at this ⊢
      exact Or.inr this
    · have : pk = n := ((beq_iff_eq ..).mp hb).symm
      simp [containsKey, List.any_cons, this]

/-! ## Pipeline state invariants -/

theorem contains_iff_mem {l : List String} {a : String} :
    l.contains a = true ↔ a ∈ l := List.elem_iff

theorem contains_false_iff {l : List String} {a : String} :
    l.contains a = false ↔ a ∉ l := by
  rw [← Bool.not_eq_true, not_iff_not]
  exact contains_iff_mem

/-- The catalog invariant: unique keys, duplicate-free order, and the order
holding exactly the key set. -/
def StInv (st : PState) : Prop :=
  (fnKeys st.functions).Nodup ∧ st.order.Nodup ∧
    ∀ n, n ∈ fnKeys st.functions ↔ n ∈ st.order

theorem stInv_init : StInv { functions := [], order := [] } := by
  refine ⟨?_, ?_, ?_⟩ <;> simp [fnKeys]

theorem recordNew_functions (st : PState) (name : String)
    (meta : FunctionMetadata) :
    (recordNew st name meta).functions = insertFn st.functions name meta :=
  rfl

theorem recordNew_inv {st : PState} {name : String}
    {meta : FunctionMetadata} (h : StInv st) :
    StInv (recordNew st name meta) := by
  obtain ⟨hk, ho, hio⟩ := h
  cases hc : containsKey st.functions name
  · have hnk : name ∉ fnKeys st.functions := not_mem_fnKeys.mpr hc
    have hno : name ∉ st.order := fun hmem => hnk ((hio name).mpr hmem)
    have hoc : st.order.contains name = false := contains_false_iff.mpr hno
    refine ⟨?_, ?_, ?_⟩
    · rw [recordNew_functions, fnKeys_insertFn_of_not_contains meta hc]
      simp [List.nodup_append, hk, hnk]
    · show (if st.order.contains name then st.order
        else st.order ++ [name]).Nodup
      rw [hoc]
      simp [List.nodup_append, ho, hno]
    · intro n
      rw [recordNew_functions, fnKeys_insertFn_of_not_contains meta hc]
      show _ ↔ n ∈ (if st.order.contains name then st.order
        else st.order ++ [name])
      rw [hoc]
      simp only [Bool.false_eq_true, if_false, List.mem_append,
        List.mem_singleton]
      exact or_congr_left (hio n)
  · have hmk : name ∈ fnKeys st.functions := mem_fnKeys.mpr hc
    have hmo : name ∈ st.order := (hio name).mp hmk
    have hoc : st.order.contains name = true := contains_iff_mem.mpr hmo
    refine ⟨?_, ?_, ?_⟩
    · rw [recordNew_functions, fnKeys_insertFn_of_contains meta hc]
      exact hk
    · show (if st.order.contains name then st.order
        else st.order ++ [name]).Nodup
      rw [hoc]
      simpa using ho
    · intro n
      rw [recordNew_functions, fnKeys_insertFn_of_contains meta hc]
      show _ ↔ n ∈ (if st.order.contains name then st.order
        else st.order ++ [name])
      rw [hoc]
      simpa using hio n

theorem recordNew_order_grows (st : PState) (name : String)
    (meta : FunctionMetadata) :
    st.order <+: (recordNew st name meta).order := by
  show st.order <+: (if st.order.contains name then st.order
    else st.order ++ [name])
  cases st.order.contains name
  · simp only [Bool.false_eq_true, if_false]
    exact List.prefix_append st.order [name]
  · simp

theorem recordNew_contains_self (st : PState) (name : String)
    (meta : FunctionMetadata) :
    containsKey (recordNew st name meta).functions name = true := by
  rw [recordNew_functions]
  exact containsKey_insertFn_self meta

theorem recordNew_contains_mono {st : PState} {n : String}
    (name : String) (meta : FunctionMetadata)
    (h : containsKey st.functions n = true) :
    containsKey (recordNew st name meta).functions n = true := by
  rw [recordNew_functions]
  exact containsKey_insertFn_mono meta h

theorem recordNew_order_mem_self (st : PState) (name : String)
    (meta : FunctionMetadata) :
    name ∈ (recordNew st name meta).order := by
  show name ∈ (if st.order.contains name then st.order
    else st.order ++ [name])
  cases hc : st.order.contains name
  · simp
  · simpa using contains_iff_mem.mp hc

theorem recordNew_order_mem_mono {st : PState} {n : String}
    (name : String) (meta : FunctionMetadata) (h : n ∈ st.order) :
    n ∈ (recordNew st name meta).order :=
  (recordNew_order_grows st name meta).subset h

theorem recordNew_lookup_self (st : PState) (name : String)
    (meta : FunctionMetadata) :
    List.lookup name (recordNew st name meta).functions = some meta := by
  rw [recordNew_functions]
  exact lookup_insertFn_self meta

theorem recordNew_lookup_fresh {st : PState} {name : String}
    {meta : FunctionMetadata} {n : String} {v : FunctionMetadata}
    (hc : containsKey st.functions name = false)
    (hl : List.lookup n st.functions = some v) :
    List.lookup n (recordNew st name meta).functions = some v := by
  by_cases hn : n = name
  · subst hn
    exact absurd (containsKey_of_lookup_some hl) (by simp [hc])
  · rw [recordNew_functions, lookup_insertFn_other meta hn]
    exact hl

theorem recordNew_lookup_other {st : PState} {name : String}
    {meta : FunctionMetadata} {n : String} (hn : n ≠ name) :
    List.lookup n (recordNew st name meta).functions =
      List.lookup n st.functions := by
  rw [recordNew_functions, lookup_insertFn_other meta hn]

/-! ## Header-phase lemmas -/

theorem headerStep_eq (cfg : ParserCfg) (oracle : RegexOracle)
    (path content : String) (st : PState) (cap : String × String) :
    headerStep cfg oracle path content st cap =
      if containsKey st.functions cap.2 then st
      else recordNew st cap.2
        (header_meta cfg oracle path content cap.2 cap.1) := rfl

theorem headerStep_inv {cfg : ParserCfg} {oracle : RegexOracle}
    {path content : String} {st : PState} {cap : String × String}
    (h : StInv st) : StInv (headerStep cfg oracle path content st cap) := by
  rw [headerStep_eq]
  cases containsKey st.functions cap.2
  · simp only [Bool.false_eq_true, if_false]
    exact recordNew_inv h
  · simpa using h

theorem headerStep_order_grows (cfg : ParserCfg) (oracle : RegexOracle)
    (path content : String) (st : PState) (cap : String × String) :
    st.order <+: (headerStep cfg oracle path content st cap).order := by
  rw [headerStep_eq]
  cases containsKey st.functions cap.2
  · simp only [Bool.false_eq_true, if_false]
    exact recordNew_order_grows ..
  · simp

theorem headerStep_contains_mono {cfg : ParserCfg} {oracle : RegexOracle}
    {path content : String} {st : PState} {cap : String × String}
    {n : String} (h : containsKey st.functions n = true) :
    containsKey (headerStep cfg oracle path content st cap).functions n =
      true := by
  rw [headerStep_eq]
  cases containsKey st.functions cap.2
  · simp only [Bool.false_eq_true, if_false]
    exact recordNew_contains_mono _ _ h
  · simpa using h

theorem headerStep_lookup_preserved {cfg : ParserCfg}
    {oracle : RegexOracle} {path content : String} {st : PState}
    {cap : String × String} {n : String} {v : FunctionMetadata}
    (h : List.lookup n st.functions = some v) :
    List.lookup n (headerStep cfg oracle path content st cap).functions =
      some v := by
  rw [headerStep_eq]
  cases hc : containsKey st.functions cap.2
  · simp only [Bool.false_eq_true, if_false]
    exact recordNew_lookup_fresh hc h
  · simpa using h

theorem headerStep_keys_new {cfg : ParserCfg} {oracle : RegexOracle}
    {path content : String} {st : PState} {cap : String × String}
    {n : String}
    (h : n ∈ fnKeys (headerStep cfg oracle path content st cap).functions) :
    n ∈ fnKeys st.functions ∨ n = cap.2 := by
  rw [headerStep_eq] at h
  cases hc : containsKey st.functions cap.2 <;> rw [hc] at h
  · simp only [Bool.false_eq_true, if_false, recordNew_functions,
      fnKeys_insertFn_of_not_contains _ hc, List.mem_append,
      List.mem_singleton] at h
    exact h
  · simp only [if_true] at h
    exact Or.inl h

theorem headerStep_order_new {cfg : ParserCfg} {oracle : RegexOracle}
    {path content : String} {st : PState} {cap : String × String}
    {n : String}
    (h : n ∈ (headerStep cfg oracle path content st cap).order) :
    n ∈ st.order ∨ n = cap.2 := by
  rw [headerStep_eq] at h
  cases hc : containsKey st.functions cap.2 <;> rw [hc] at h
  · by_cases hoc : st.order.contains cap.2
    · replace h : n ∈ (if st.order.contains cap.2 then st.order
        else st.order ++ [cap.2]) := h
      rw [if_pos hoc] at h
      exact Or.inl h
    · replace h : n ∈ (if st.order.contains cap.2 then st.order
        else st.order ++ [cap.2]) := h
      rw [if_neg hoc] at h
      simpa using h
  · simp only [if_true] at h
    exact Or.inl h

theorem headerFold_inv {cfg : ParserCfg} {oracle : RegexOracle}
    {path content : String} :
    ∀ (caps : List (String × String)) (st : PState), StInv st →
      StInv (headerFold cfg oracle path content st caps) := by
  intro caps
  induction caps with
  | nil => intro st h; exact h
  | cons cap rest ih =>
    intro st h
    exact ih _ (headerStep_inv h)

theorem headerFold_order_grows {cfg : ParserCfg} {oracle : RegexOracle}
    {path content : String} :
    ∀ (caps : List (String × String)) (st : PState),
      st.order <+: (headerFold cfg oracle path content st caps).order := by
  intro caps
  induction caps with
  | nil => intro st; exact List.prefix_refl _
  | cons cap rest ih =>
    intro st
    exact (headerStep_order_grows ..).trans (ih _)

theorem headerFold_contains_mono {cfg : ParserCfg} {oracle : RegexOracle}
    {path content : String} :
    ∀ (caps : List (String × String)) (st : PState) (n : String),
      containsKey st.functions n = true →
      containsKey (headerFold cfg oracle path content st caps).functions n =
        true := by
  intro caps
  induction caps with
  | nil => intro st n h; exact h
  | cons cap rest ih =>
    intro st n h
    exact ih _ _ (headerStep_contains_mono h)

theorem headerFold_lookup_preserved {cfg : ParserCfg}
    {oracle : RegexOracle} {path content : String} :
    ∀ (caps : List (String × String)) (st : PState) (n : String)
      (v : FunctionMetadata), List.lookup n st.functions = some v →
      List.lookup n
        (headerFold cfg oracle path content st caps).functions = some v := by
  intro caps
  induction caps with
  | nil => intro st n v h; exact h
  | cons cap rest ih =>
    intro st n v h
    exact ih _ _ _ (headerStep_lookup_preserved h)

theorem headerFold_keys_new {cfg : ParserCfg} {oracle : RegexOracle}
    {path content : String} :
    ∀ (caps : List (String × String)) (st : PState) (n : String),
      n ∈ fnKeys (headerFold cfg oracle path content st caps).functions →
      n ∈ fnKeys st.functions ∨ ∃ cap ∈ caps, cap.2 = n := by
  intro caps
  induction caps with
  | nil => intro st n h; exact Or.inl h
  | cons cap rest ih =>
    intro st n h
    rcases ih _ _ h with h' | ⟨c, hc, he⟩
    · rcases headerStep_keys_new h' with h'' | h''
      · exact Or.inl h''
      · exact Or.inr ⟨cap, List.mem_cons_self .., h''.symm⟩
    · exact Or.inr ⟨c, List.mem_cons_of_mem _ hc, he⟩

theorem headerFold_order_new {cfg : ParserCfg} {oracle : RegexOracle}
    {path content : String} :
    ∀ (caps : List (String × String)) (st : PState) (n : String),
      n ∈ (headerFold cfg oracle path content st caps).order →
      n ∈ st.order ∨ ∃ cap ∈ caps, cap.2 = n := by
  intro caps
  induction caps with
  | nil => intro st n h; exact Or.inl h
  | cons cap rest ih =>
    intro st n h
    rcases ih _ _ h with h' | ⟨c, hc, he⟩
    · rcases headerStep_order_new h' with h'' | h''
      · exact Or.inl h''
      · exact Or.inr ⟨cap, List.mem_cons_self .., h''.symm⟩
    · exact Or.inr ⟨c, List.mem_cons_of_mem _ hc, he⟩

theorem headerFold_contains_of_mem {cfg : ParserCfg}
    {oracle : RegexOracle} {path content : String} :
    ∀ (caps : List (String × String)) (st : PState)
      (cap : String × String), cap ∈ caps →
      containsKey
        (headerFold cfg oracle path content st caps).functions cap.2 =
        true := by
  intro caps
  induction caps with
  | nil => intro st cap h; cases h
  | cons c rest ih =>
    intro st cap h
    rcases List.mem_cons.mp h with he | hr
    · subst he
      show containsKey (headerFold cfg oracle path content
        (headerStep cfg oracle path content st cap) rest).functions cap.2 =
        true
      apply headerFold_contains_mono
      rw [headerStep_eq]
      cases hc : containsKey st.functions cap.2
      · simp only [Bool.false_eq_true, if_false]
        exact recordNew_contains_self ..
      · simpa using hc
    · exact ih _ _ hr

theorem headerFold_head_lookup (cfg : ParserCfg) (oracle : RegexOracle)
    (path content whole fname : String) (st : PState)
    (rest : List (String × String))
    (hc : containsKey st.functions fname = false) :
    List.lookup fname
        (headerFold cfg oracle path content st
          ((whole, fname) :: rest)).functions =
      some (header_meta cfg oracle path content fname whole) ∧
    fname ∈ (headerFold cfg oracle path content st
        ((whole, fname) :: rest)).order := by
  show List.lookup fname (headerFold cfg oracle path content
    (headerStep cfg oracle path content st (whole, fname)) rest).functions =
      _ ∧ fname ∈ (headerFold cfg oracle path content
        (headerStep cfg oracle path content st (whole, fname)) rest).order
  have hstep : headerStep cfg oracle path content st (whole, fname) =
      recordNew st fname (header_meta cfg oracle path content fname whole) := by
    rw [headerStep_eq]
    simp [hc]
  rw [hstep]
  constructor
  · exact headerFold_lookup_preserved _ _ _ _ (recordNew_lookup_self ..)
  · exact (headerFold_order_grows _ _).subset (recordNew_order_mem_self ..)

/-! ## File-walk lemmas -/

theorem fileStep_cases (cfg : ParserCfg) (oracle : RegexOracle)
    (st : PState) (e : FsFile) :
    fileStep cfg oracle st e = Except.ok st ∨
    (∃ content, e.content = some content ∧
      fileStep cfg oracle st e =
        Except.ok (parse_header_file cfg oracle e.path content st)) ∨
    (∃ content, e.content = some content ∧
      containsKey st.functions ((fileStemOpt e.path).getD "unknown") =
        false ∧
      fileStep cfg oracle st e =
        Except.ok (recordNew st ((fileStemOpt e.path).getD "unknown")
          (parse_c_file_meta cfg oracle e.path content
            ((fileStemOpt e.path).getD "unknown")))) ∨
    (e.isFile = true ∧ extension e.path = some "h" ∧ e.content = none ∧
      fileStep cfg oracle st e = Except.error ()) := by
  cases hf : e.isFile
  · left; simp [fileStep, hf]
  · cases hext : extension e.path with
    | none => left; simp [fileStep, hf, hext]
    | some ext =>
      by_cases hc : (ext == "c" && !strContains e.path "main.c") = true
      · by_cases hk : containsKey st.functions
            ((fileStemOpt e.path).getD "unknown") = true
        · left; simp [fileStep, hf, hext, hc, hk]
        · rw [Bool.not_eq_true] at hk
          cases hcont : e.content with
          | none => left; simp [fileStep, hf, hext, hc, hk, hcont]
          | some content =>
            right; right; left
            exact ⟨content, rfl, hk, by
              simp [fileStep, hf, hext, hc, hk, hcont]⟩
      · by_cases hh : (ext == "h") = true
        · cases hcont : e.content with
          | none =>
            right; right; right
            have : ext = "h" := by simpa using hh
            subst this
            exact ⟨rfl, rfl, rfl, by
              simp [fileStep, hf, hext, hc, hcont]⟩
          | some content =>
            right; left
            exact ⟨content, rfl, by
              simp [fileStep, hf, hext, hc, hh, hcont]⟩
        · left; simp [fileStep, hf, hext, hc, hh]

theorem fileStep_inv {cfg : ParserCfg} {oracle : RegexOracle} {st : PState}
    {e : FsFile} {st' : PState} (h : StInv st)
    (hstep : fileStep cfg oracle st e = Except.ok st') : StInv st' := by
  rcases fileStep_cases cfg oracle st e with hc | ⟨c, _, hc⟩ |
    ⟨c, _, hk, hc⟩ | ⟨_, _, _, hc⟩ <;> rw [hc] at hstep <;> cases hstep
  · exact h
  · exact headerFold_inv _ _ h
  · exact recordNew_inv h

theorem fileStep_order_grows {cfg : ParserCfg} {oracle : RegexOracle}
    {st : PState} {e : FsFile} {st' : PState}
    (hstep : fileStep cfg oracle st e = Except.ok st') :
    st.order <+: st'.order := by
  rcases fileStep_cases cfg oracle st e with hc | ⟨c, _, hc⟩ |
    ⟨c, _, hk, hc⟩ | ⟨_, _, _, hc⟩ <;> rw [hc] at hstep <;> cases hstep
  · exact List.prefix_refl _
  · exact headerFold_order_grows ..
  · exact recordNew_order_grows ..

theorem fileStep_contains_mono {cfg : ParserCfg} {oracle : RegexOracle}
    {st : PState} {e : FsFile} {st' : PState} {n : String}
    (hstep : fileStep cfg oracle st e = Except.ok st')
    (h : containsKey st.functions n = true) :
    containsKey st'.functions n = true := by
  rcases fileStep_cases cfg oracle st e with hc | ⟨c, _, hc⟩ |
    ⟨c, _, hk, hc⟩ | ⟨_, _, _, hc⟩ <;> rw [hc] at hstep <;> cases hstep
  · exact h
  · exact headerFold_contains_mono _ _ _ h
  · exact recordNew_contains_mono _ _ h

theorem fileStep_lookup_preserved {cfg : ParserCfg} {oracle : RegexOracle}
    {st : PState} {e : FsFile} {st' : PState} {n : String}
    {v : FunctionMetadata}
    (hstep : fileStep cfg oracle st e = Except.ok st')
    (h : List.lookup n st.functions = some v) :
    List.lookup n st'.functions = some v := by
  rcases fileStep_cases cfg oracle st e with hc | ⟨c, _, hc⟩ |
    ⟨c, _, hk, hc⟩ | ⟨_, _, _, hc⟩ <;> rw [hc] at hstep <;> cases hstep
  · exact h
  · exact headerFold_lookup_preserved _ _ _ _ h
  · exact recordNew_lookup_fresh hk h

theorem fileStep_c_eq {cfg : ParserCfg} {oracle : RegexOracle}
    {st : PState} {e : FsFile} {content : String}
    (hf : e.isFile = true) (hext : extension e.path = some "c")
    (hm : strContains e.path "main.c" = false)
    (hcont : e.content = some content) :
    fileStep cfg oracle st e =
      if containsKey st.functions ((fileStemOpt e.path).getD "unknown") then
        Except.ok st
      else
        Except.ok (recordNew st ((fileStemOpt e.path).getD "unknown")
          (parse_c_file_meta cfg oracle e.path content
            ((fileStemOpt e.path).getD "unknown"))) := by
  cases hk : containsKey st.functions ((fileStemOpt e.path).getD "unknown")
  · simp [fileStep, hf, hext, hm, hcont, hk]
  · simp [fileStep, hf, hext, hm, hcont, hk]

theorem fileStep_h_eq {cfg : ParserCfg} {oracle : RegexOracle}
    {st : PState} {e : FsFile} {content : String}
    (hf : e.isFile = true) (hext : extension e.path = some "h")
    (hcont : e.content = some content) :
    fileStep cfg oracle st e =
      Except.ok (parse_header_file cfg oracle e.path content st) := by
  simp [fileStep, hf, hext, hcont]

theorem fileFold_inv {cfg : ParserCfg} {oracle : RegexOracle} :
    ∀ (l : List FsFile) (st st' : PState), StInv st →
      fileFold cfg oracle st l = Except.ok st' → StInv st' := by
  intro l
  induction l with
  | nil =>
    intro st st' h hf
    simp only [fileFold] at hf
    cases hf
    exact h
  | cons e es ih =>
    intro st st' h hf
    simp only [fileFold] at hf
    cases hstep : fileStep cfg oracle st e with
    | error u => rw [hstep] at hf; cases hf
    | ok st1 =>
      rw [hstep] at hf
      exact ih _ _ (fileStep_inv h hstep) hf

theorem fileFold_order_grows {cfg : ParserCfg} {oracle : RegexOracle} :
    ∀ (l : List FsFile) (st st' : PState),
      fileFold cfg oracle st l = Except.ok st' →
      st.order <+: st'.order := by
  intro l
  induction l with
  | nil =>
    intro st st' hf
    simp only [fileFold] at hf
    cases hf
    exact List.prefix_refl _
  | cons e es ih =>
    intro st st' hf
    simp only [fileFold] at hf
    cases hstep : fileStep cfg oracle st e with
    | error u => rw [hstep] at hf; cases hf
    | ok st1 =>
      rw [hstep] at hf
      exact (fileStep_order_grows hstep).trans (ih _ _ hf)

theorem fileFold_contains_mono {cfg : ParserCfg} {oracle : RegexOracle} :
    ∀ (l : List FsFile) (st st' : PState) (n : String),
      fileFold cfg oracle st l = Except.ok st' →
      containsKey st.functions n = true →
      containsKey st'.functions n = true := by
  intro l
  induction l with
  | nil =>
    intro st st' n hf h
    simp only [fileFold] at hf
    cases hf
    exact h
  | cons e es ih =>
    intro st st' n hf h
    simp only [fileFold] at hf
    cases hstep : fileStep cfg oracle st e with
    | error u => rw [hstep] at hf; cases hf
    | ok st1 =>
      rw [hstep] at hf
      exact ih _ _ _ hf (fileStep_contains_mono hstep h)

theorem fileFold_lookup_preserved {cfg : ParserCfg}
    {oracle : RegexOracle} :
    ∀ (l : List FsFile) (st st' : PState) (n : String)
      (v : FunctionMetadata),
      fileFold cfg oracle st l = Except.ok st' →
      List.lookup n st.functions = some v →
      List.lookup n st'.functions = some v := by
  intro l
  induction l with
  | nil =>
    intro st st' n v hf h
    simp only [fileFold] at hf
    cases hf
    exact h
  | cons e es ih =>
    intro st st' n v hf h
    simp only [fileFold] at hf
    cases hstep : fileStep cfg oracle st e with
    | error u => rw [hstep] at hf; cases hf
    | ok st1 =>
      rw [hstep] at hf
      exact ih _ _ _ _ hf (fileStep_lookup_preserved hstep h)

theorem fileFold_c_processed {cfg : ParserCfg} {oracle : RegexOracle} :
    ∀ (l : List FsFile) (st st' : PState) (e : FsFile) (content : String),
      e ∈ l → e.isFile = true → extension e.path = some "c" →
      strContains e.path "main.c" = false → e.content = some content →
      fileFold cfg oracle st l = Except.ok st' →
      containsKey st'.functions ((fileStemOpt e.path).getD "unknown") =
        true := by
  intro l
  induction l with
  | nil => intro st st' e content he; cases he
  | cons e0 es ih =>
    intro st st' e content he hf hext hm hcont hfold
    simp only [fileFold] at hfold
    cases hstep : fileStep cfg oracle st e0 with
    | error u => rw [hstep] at hfold; cases hfold
    | ok st1 =>
      rw [hstep] at hfold
      rcases List.mem_cons.mp he with he0 | hes
      · subst he0
        apply fileFold_contains_mono es st1 st' _ hfold
        rw [fileStep_c_eq hf hext hm hcont] at hstep
        cases hk : containsKey st.functions
            ((fileStemOpt e.path).getD "unknown") <;> rw [hk] at hstep <;>
          simp only [Bool.false_eq_true, if_false, if_true,
            Except.ok.injEq] at hstep <;> subst hstep
        · exact recordNew_contains_self ..
        · exact hk
      · exact ih _ _ _ _ hes hf hext hm hcont hfold

theorem fileFold_h_processed {cfg : ParserCfg} {oracle : RegexOracle} :
    ∀ (l : List FsFile) (st st' : PState) (e : FsFile) (content : String)
      (cap : String × String),
      e ∈ l → e.isFile = true → extension e.path = some "h" →
      e.content = some content →
      cap ∈ oracle.headerCaptures content →
      fileFold cfg oracle st l = Except.ok st' →
      containsKey st'.functions cap.2 = true := by
  intro l
  induction l with
  | nil => intro st st' e content cap he; cases he
  | cons e0 es ih =>
    intro st st' e content cap he hf hext hcont hcap hfold
    simp only [fileFold] at hfold
    cases hstep : fileStep cfg oracle st e0 with
    | error u => rw [hstep] at hfold; cases hfold
    | ok st1 =>
      rw [hstep] at hfold
      rcases List.mem_cons.mp he with he0 | hes
      · subst he0
        apply fileFold_contains_mono es st1 st' _ hfold
        rw [fileStep_h_eq hf hext hcont, Except.ok.injEq] at hstep
        subst hstep
        exact headerFold_contains_of_mem _ _ _ hcap
      · exact ih _ _ _ _ _ hes hf hext hcont hcap hfold

theorem fileFold_total {cfg : ParserCfg} {oracle : RegexOracle} :
    ∀ (l : List FsFile) (st : PState),
      (∀ e ∈ l, e.isFile = true → extension e.path = some "h" →
        e.content ≠ none) →
      ∃ st', fileFold cfg oracle st l = Except.ok st' := by
  intro l
  induction l with
  | nil => intro st _; exact ⟨st, rfl⟩
  | cons e es ih =>
    intro st hl
    have hstep : ∃ st1, fileStep cfg oracle st e = Except.ok st1 := by
      rcases fileStep_cases cfg oracle st e with hc | ⟨c, _, hc⟩ |
        ⟨c, _, _, hc⟩ | ⟨hf, hext, hcont, hc⟩
      · exact ⟨st, hc⟩
      · exact ⟨_, hc⟩
      · exact ⟨_, hc⟩
      · exact absurd hcont (hl e (List.mem_cons_self ..) hf hext)
    obtain ⟨st1, hstep⟩ := hstep
    obtain ⟨st', hrest⟩ := ih st1 (fun e' he' => hl e'
      (List.mem_cons_of_mem _ he'))
    refine ⟨st', ?_⟩
    simp only [fileFold]
    rw [hstep]
    exact hrest

/-! ## Manual-override phase lemmas -/

theorem merge_manual_step_eq (st : PState)
    (nm : String × FunctionMetadata) :
    merge_manual_step st nm = recordNew st nm.1 (merge_manual_fix nm.2) :=
  rfl

theorem manualFold_inv :
    ∀ (L : List (String × FunctionMetadata)) (st : PState), StInv st →
      StInv (manualFold st L) := by
  intro L
  induction L with
  | nil => intro st h; exact h
  | cons nm rest ih =>
    intro st h
    exact ih _ (recordNew_inv h)

theorem manualFold_order_grows :
    ∀ (L : List (String × FunctionMetadata)) (st : PState),
      st.order <+: (manualFold st L).order := by
  intro L
  induction L with
  | nil => intro st; exact List.prefix_refl _
  | cons nm rest ih =>
    intro st
    exact (recordNew_order_grows ..).trans (ih _)

theorem manualFold_contains_mono :
    ∀ (L : List (String × FunctionMetadata)) (st : PState) (n : String),
      containsKey st.functions n = true →
      containsKey (manualFold st L).functions n = true := by
  intro L
  induction L with
  | nil => intro st n h; exact h
  | cons nm rest ih =>
    intro st n h
    exact ih _ _ (recordNew_contains_mono _ _ h)

theorem merge_manual_step_order_stable {st : PState} {name : String}
    (meta : FunctionMetadata) (h : name ∈ st.order) :
    (merge_manual_step st (name, meta)).order = st.order := by
  show (if st.order.contains name then st.order
    else st.order ++ [name]) = st.order
  rw [contains_iff_mem.mpr h]
  simp

theorem manualFold_lookup_preserved_of_not_key :
    ∀ (L : List (String × FunctionMetadata)) (st : PState) (n : String),
      n ∉ fnKeys L →
      List.lookup n (manualFold st L).functions =
        List.lookup n st.functions := by
  intro L
  induction L with
  | nil => intro st n _; rfl
  | cons nm rest ih =>
    intro st n hn
    simp only [fnKeys, List.map_cons, List.mem_cons, not_or] at hn
    show List.lookup n (manualFold (merge_manual_step st nm) rest).functions
      = _
    rw [ih _ _ (by simpa [fnKeys] using hn.2), merge_manual_step_eq,
      recordNew_lookup_other hn.1]

theorem manualFold_lookup_of_mem :
    ∀ (L : List (String × FunctionMetadata)) (st : PState) (name : String)
      (meta : FunctionMetadata), (fnKeys L).Nodup → (name, meta) ∈ L →
      List.lookup name (manualFold st L).functions =
        some (merge_manual_fix meta) := by
  intro L
  induction L with
  | nil => intro st name meta _ hm; cases hm
  | cons nm rest ih =>
    intro st name meta hnd hm
    simp only [fnKeys, List.map_cons, List.nodup_cons] at hnd
    rcases List.mem_cons.mp hm with he | hr
    · subst he
      show List.lookup name
        (manualFold (merge_manual_step st (name, meta)) rest).functions = _
      rw [manualFold_lookup_preserved_of_not_key rest _ _
        (by simpa [fnKeys] using hnd.1)]
      rw [merge_manual_step_eq]
      exact recordNew_lookup_self ..
    · exact ih _ _ _ (by simpa [fnKeys] using hnd.2) hr

theorem fnKeys_insertFn_nodup {m : Functions} {k : String}
    (v : FunctionMetadata) (h : (fnKeys m).Nodup) :
    (fnKeys (insertFn m k v)).Nodup := by
  cases hc : containsKey m k
  · rw [fnKeys_insertFn_of_not_contains v hc]
    simp [List.nodup_append, h, not_mem_fnKeys.mpr hc]
  · rw [fnKeys_insertFn_of_contains v hc]
    exact h

theorem load_manuals_step_keys_nodup {oracle : RegexOracle}
    {out : Functions} (f : ManualFile) (h : (fnKeys out).Nodup) :
    (fnKeys (load_manuals_step oracle out f)).Nodup := by
  cases hcontent : f.content with
  | none => simpa [load_manuals_step, hcontent] using h
  | some txt =>
    cases hj : oracle.parseJson txt with
    | none => simpa [load_manuals_step, hcontent, hj] using h
    | some meta0 =>
      simp only [load_manuals_step, hcontent, hj]
      exact fnKeys_insertFn_nodup _ h

theorem load_manuals_keys_nodup (oracle : RegexOracle) (fs : FsTree) :
    (fnKeys (load_manuals oracle fs)).Nodup := by
  unfold load_manuals
  have main : ∀ (files : List ManualFile) (out : Functions),
      (fnKeys out).Nodup →
      (fnKeys (files.foldl (load_manuals_step oracle) out)).Nodup := by
    intro files
    induction files with
    | nil => intro out h; exact h
    | cons f rest ih =>
      intro out h
      exact ih _ (load_manuals_step_keys_nodup f h)
  exact main _ _ (by simp [fnKeys])

/-! ## String lemmas -/

theorem string_ne_empty_iff_data {s : String} : s ≠ "" ↔ s.data ≠ [] := by
  rw [ne_eq, ne_eq, String.ext_iff]

theorem ne_empty_of_isEmpty_false {s : String} (h : s.isEmpty = false) :
    s ≠ "" := by
  intro he
  subst he
  exact absurd h (by decide)

theorem isEmpty_false_of_ne_empty {s : String} (h : s ≠ "") :
    s.isEmpty = false := by
  cases hb : s.isEmpty
  · rfl
  · exact absurd ((String.isEmpty_iff s).mp hb) h

theorem contains_append {l1 l2 : List String} {a : String} :
    (l1 ++ l2).contains a = (l1.contains a || l2.contains a) := by
  cases h1 : l1.contains a
  · cases h2 : l2.contains a
    · simp only [Bool.or_false]
      rw [contains_false_iff] at h1 h2
      exact contains_false_iff.mpr (by
        simp only [List.mem_append]
        rintro (h | h)
        · exact h1 h
        · exact h2 h)
    · simp only [Bool.or_true]
      exact contains_iff_mem.mpr
        (List.mem_append_right _ (contains_iff_mem.mp h2))
  · simp only [Bool.true_or]
    exact contains_iff_mem.mpr
      (List.mem_append_left _ (contains_iff_mem.mp h1))

theorem splitOnCharData_ne_nil (sep : Char) (l : List Char) :
    splitOnCharData sep l ≠ [] := by
  induction l with
  | nil => simp [splitOnCharData]
  | cons a as ih =>
    by_cases ha : a = sep
    · simp [splitOnCharData, ha]
    · simp only [splitOnCharData, ha, if_false]
      cases hs : splitOnCharData sep as with
      | nil => simp
      | cons g gs => simp

theorem splitOnCharData_no_sep (sep : Char) (l : List Char) :
    ∀ g ∈ splitOnCharData sep l, sep ∉ g := by
  induction l with
  | nil =>
    intro g hg
    simp only [splitOnCharData, List.mem_singleton] at hg
    subst hg
    simp
  | cons a as ih =>
    intro g hg
    by_cases ha : a = sep
    · simp only [splitOnCharData, ha, if_true, List.mem_cons] at hg
      rcases hg with rfl | hg
      · simp
      · exact ih g hg
    · simp only [splitOnCharData, ha, if_false] at hg
      cases hs : splitOnCharData sep as with
      | nil => exact absurd hs (splitOnCharData_ne_nil sep as)
      | cons g0 gs =>
        rw [hs] at hg
        rcases List.mem_cons.mp hg with rfl | hg2
        · intro hmem
          rcases List.mem_cons.mp hmem with rfl | hmem2
          · exact ha rfl
          · exact ih g0 (hs ▸ List.mem_cons_self ..) hmem2
        · exact ih g (hs ▸ List.mem_cons_of_mem _ hg2)

theorem mem_pathComponents_no_slash {p s : String}
    (h : s ∈ pathComponents p) : '/' ∉ s.data := by
  unfold pathComponents splitSlash splitOnChar at h
  have h1 := List.mem_filter.mp h
  rcases List.mem_map.mp h1.1 with ⟨l, hl, rfl⟩
  exact splitOnCharData_no_sep _ _ l hl

theorem mem_pathComponents_ne_empty {p s : String}
    (h : s ∈ pathComponents p) : s ≠ "" := by
  unfold pathComponents at h
  have h1 := List.mem_filter.mp h
  have h2 : (!s.isEmpty && s != ".") = true := h1.2
  rw [Bool.and_eq_true] at h2
  exact ne_empty_of_isEmpty_false (by
    cases hb : s.isEmpty
    · rfl
    · rw [hb] at h2; exact absurd h2.1 (by decide))

theorem takeUntilSlash_of_no_slash {l : List Char} (h : '/' ∉ l) :
    takeUntilSlash l = l := by
  induction l with
  | nil => rfl
  | cons c cs ih =>
    have hc : ¬ c = '/' := fun he => h (he ▸ List.mem_cons_self ..)
    have hcs : '/' ∉ cs := fun hm => h (List.mem_cons_of_mem _ hm)
    simp [takeUntilSlash, hc, ih hcs]

theorem takeUntilSlash_append {xs ys : List Char} (h : '/' ∉ xs) :
    takeUntilSlash (xs ++ '/' :: ys) = xs := by
  induction xs with
  | nil => simp [takeUntilSlash]
  | cons c cs ih =>
    have hc : ¬ c = '/' := fun he => h (he ▸ List.mem_cons_self ..)
    have hcs : '/' ∉ cs := fun hm => h (List.mem_cons_of_mem _ hm)
    simp [takeUntilSlash, hc, ih hcs]

theorem firstSegment_of_no_slash {s : String} (h : '/' ∉ s.data) :
    firstSegment s = s := by
  unfold firstSegment
  rw [takeUntilSlash_of_no_slash h]

theorem firstSegment_joinSep {a : String} (t : List String)
    (h : '/' ∉ a.data) : firstSegment (joinSep "/" (a :: t)) = a := by
  cases t with
  | nil => exact firstSegment_of_no_slash h
  | cons b t' =>
    show firstSegment (a ++ "/" ++ joinSep "/" (b :: t')) = a
    unfold firstSegment
    have hd : (a ++ "/" ++ joinSep "/" (b :: t')).data =
        a.data ++ '/' :: (joinSep "/" (b :: t')).data := by
      rw [String.data_append, String.data_append]
      show a.data ++ ['/'] ++ (joinSep "/" (b :: t')).data =
        a.data ++ '/' :: (joinSep "/" (b :: t')).data
      simp [List.append_assoc]
    rw [hd, takeUntilSlash_append h]

theorem joinSep_ne_empty {a : String} (t : List String) (h : a ≠ "") :
    joinSep "/" (a :: t) ≠ "" := by
  cases t with
  | nil => exact h
  | cons b t' =>
    show a ++ "/" ++ joinSep "/" (b :: t') ≠ ""
    rw [string_ne_empty_iff_data, String.data_append, String.data_append]
    intro hc
    rcases List.append_eq_nil.mp hc with ⟨hc1, -⟩
    rcases List.append_eq_nil.mp hc1 with ⟨hc2, -⟩
    exact string_ne_empty_iff_data.mp h hc2

theorem firstSegOr_eq_firstSegment (s : String) :
    firstSegOr s = firstSegment s := by
  unfold firstSegOr splitSlash splitOnChar firstSegment
  cases hs : splitOnCharData '/' s.data with
  | nil => exact absurd hs (splitOnCharData_ne_nil '/' s.data)
  | cons g gs =>
    simp only [List.map_cons]
    congr 1
    have : ∀ (l : List Char),
        splitOnCharData '/' l = g :: gs → takeUntilSlash l = g := by
      clear hs
      intro l
      induction l generalizing g gs with
      | nil =>
        intro hl
        simp only [splitOnCharData, List.cons.injEq] at hl
        simp [takeUntilSlash, ← hl.1]
      | cons c cs ih =>
        intro hl
        by_cases hc : c = '/'
        · simp only [splitOnCharData, hc, if_true, List.cons.injEq] at hl
          simp [takeUntilSlash, hc, ← hl.1]
        · simp only [splitOnCharData, hc, if_false] at hl
          cases hs2 : splitOnCharData '/' cs with
          | nil => exact absurd hs2 (splitOnCharData_ne_nil '/' cs)
          | cons g0 gs0 =>
            rw [hs2] at hl
            injection hl with h1 h2
            subst h1
            simp only [takeUntilSlash, hc, if_false]
            rw [ih g0 gs0 hs2]
    exact (this s.data hs).symm

/-! ## Category-extraction lemmas -/

theorem stripPrefixComps_subset {root p : String} {rel : List String}
    (h : stripPrefixComps root p = some rel) :
    ∀ s ∈ rel, s ∈ pathComponents p := by
  unfold stripPrefixComps at h
  by_cases hp : (pathComponents root).isPrefixOf (pathComponents p) = true
  · rw [if_pos hp, Option.some.injEq] at h
    subst h
    intro s hs
    exact List.drop_subset _ _ hs
  · rw [if_neg hp] at h
    cases h

theorem extract_category_spec (cfg : ParserCfg) (path : String)
    (h : ".." ∉ pathComponents path) :
    extract_category_from_path cfg path ≠ "" ∧
    extract_category_path_from_path cfg path ≠ "" ∧
    firstSegment (extract_category_path_from_path cfg path) =
      extract_category_from_path cfg path := by
  have hmisc1 : ("misc" : String) ≠ "" := by decide
  have hmisc2 : firstSegment "misc" = "misc" := rfl
  unfold extract_category_path_from_path
  cases hs : stripPrefixComps (categories_root cfg) path with
  | none =>
    have hcat : extract_category_from_path cfg path = "misc" := by
      unfold extract_category_from_path
      rw [hs]
    rw [hcat]
    exact ⟨hmisc1, hmisc1, hmisc2⟩
  | some rel =>
    cases rel with
    | nil =>
      have hcat : extract_category_from_path cfg path = "misc" := by
        unfold extract_category_from_path
        rw [hs]
      simp only [List.isEmpty_nil, if_true, hcat]
      exact ⟨hmisc1, hmisc1, hmisc2⟩
    | cons a rest2 =>
      have ha_mem : a ∈ pathComponents path :=
        stripPrefixComps_subset hs a (List.mem_cons_self ..)
      have ha_ne : a ≠ "" := mem_pathComponents_ne_empty ha_mem
      have ha_slash : '/' ∉ a.data := mem_pathComponents_no_slash ha_mem
      have ha_dd : a ≠ ".." := fun he => h (he ▸ ha_mem)
      have hcat : extract_category_from_path cfg path = a := by
        unfold extract_category_from_path
        rw [hs]
      simp only [List.isEmpty_cons, Bool.false_eq_true, if_false]
      cases rest2 with
      | nil =>
        simp only [List.dropLast_single, List.filter_nil, joinSep]
        have : (!("" : String).isEmpty) = false := by decide
        rw [this]
        simp only [Bool.false_eq_true, if_false, hcat]
        exact ⟨ha_ne, ha_ne, firstSegment_of_no_slash ha_slash⟩
      | cons b rest3 =>
        rw [List.dropLast_cons_of_ne_nil (by simp)]
        have hfa : List.filter (fun c => c != "..")
            (a :: (b :: rest3).dropLast) =
            a :: (b :: rest3).dropLast.filter (fun c => c != "..") := by
          simp [List.filter_cons, ha_dd]
        rw [hfa]
        set tail := ((b :: rest3).dropLast.filter (fun c => c != ".."))
          with htail
        have hjoin_ne : joinSep "/" (a :: tail) ≠ "" :=
          joinSep_ne_empty tail ha_ne
        rw [isEmpty_false_of_ne_empty hjoin_ne]
        simp only [Bool.not_false, if_true, hcat]
        exact ⟨ha_ne, hjoin_ne, firstSegment_joinSep tail ha_slash⟩

/-! ## Prototype / description gate lemmas -/

theorem acceptProto_spec {n m p : String} (h : acceptProto n m = some p) :
    p ≠ "" ∧ p.utf8ByteSize > n.utf8ByteSize := by
  simp only [acceptProto] at h
  split at h
  · rename_i hcond
    rw [Option.some.injEq] at h
    subst h
    rw [Bool.and_eq_true] at hcond
    refine ⟨?_, of_decide_eq_true hcond.2⟩
    apply ne_empty_of_isEmpty_false
    cases hb : (strTrim (dropTrailingChar ';' (dropTrailingChar '{' m))).isEmpty
    · rfl
    · rw [hb] at hcond
      exact absurd hcond.1 (by decide)
  · cases h

theorem protoPlaceholder_ne_empty (n : String) :
    protoPlaceholder n ≠ "" := by
  rw [string_ne_empty_iff_data]
  unfold protoPlaceholder
  rw [String.data_append, String.data_append]
  intro hc
  rcases List.append_eq_nil.mp hc with ⟨hc1, -⟩
  rcases List.append_eq_nil.mp hc1 with ⟨hc2, -⟩
  exact absurd hc2 (by decide)

theorem extract_function_prototype_spec (oracle : RegexOracle)
    (content funcName : String) :
    (extract_function_prototype oracle content funcName ≠ "" ∧
      (extract_function_prototype oracle content funcName).utf8ByteSize >
        funcName.utf8ByteSize) ∨
    extract_function_prototype oracle content funcName =
      protoPlaceholder funcName := by
  unfold extract_function_prototype
  cases h1 : (oracle.findProto1 funcName content).bind
      (acceptProto funcName) with
  | some p =>
    rw [Option.some_orElse, Option.getD_some]
    rcases Option.bind_eq_some.mp h1 with ⟨m, -, hacc⟩
    exact Or.inl (acceptProto_spec hacc)
  | none =>
    rw [Option.none_orElse]
    cases h2 : (oracle.findProto2 funcName content).bind
        (acceptProto funcName) with
    | some p =>
      rw [Option.some_orElse, Option.getD_some]
      rcases Option.bind_eq_some.mp h2 with ⟨m, -, hacc⟩
      exact Or.inl (acceptProto_spec hacc)
    | none =>
      rw [Option.none_orElse]
      cases h3 : (oracle.findProto3 funcName content).bind
          (acceptProto funcName) with
      | some p =>
        rw [Option.getD_some]
        rcases Option.bind_eq_some.mp h3 with ⟨m, -, hacc⟩
        exact Or.inl (acceptProto_spec hacc)
      | none =>
        rw [Option.getD_none]
        exact Or.inr rfl

theorem extract_function_prototype_ne_empty (oracle : RegexOracle)
    (content funcName : String) :
    extract_function_prototype oracle content funcName ≠ "" := by
  rcases extract_function_prototype_spec oracle content funcName with
    ⟨hne, -⟩ | heq
  · exact hne
  · rw [heq]
    exact protoPlaceholder_ne_empty funcName

theorem acceptDesc_spec {cap : Option String} {d : String}
    (h : acceptDesc cap = some d) : d ≠ "" ∧ d.utf8ByteSize > 10 := by
  simp only [acceptDesc] at h
  rcases Option.bind_eq_some.mp h with ⟨comment, -, hd⟩
  split at hd
  · rename_i hcond
    rw [Option.some.injEq] at hd
    subst hd
    rw [Bool.and_eq_true] at hcond
    refine ⟨?_, of_decide_eq_true hcond.2⟩
    apply ne_empty_of_isEmpty_false
    cases hb : (cleanComment comment).isEmpty
    · rfl
    · rw [hb] at hcond
      exact absurd hcond.1 (by decide)
  · cases hd

theorem descPlaceholder_ne_empty : descPlaceholder ≠ "" := by decide

theorem extract_description_spec (oracle : RegexOracle) (content : String) :
    (extract_description oracle content ≠ "" ∧
      (extract_description oracle content).utf8ByteSize > 10) ∨
    extract_description oracle content = descPlaceholder := by
  unfold extract_description
  cases h1 : acceptDesc (oracle.findDesc1 content) with
  | some d =>
    rw [Option.some_orElse, Option.getD_some]
    exact Or.inl (acceptDesc_spec h1)
  | none =>
    rw [Option.none_orElse]
    cases h2 : acceptDesc (oracle.findDesc2 content) with
    | some d =>
      rw [Option.some_orElse, Option.getD_some]
      exact Or.inl (acceptDesc_spec h2)
    | none =>
      rw [Option.none_orElse]
      cases h3 : acceptDesc (oracle.findDesc3 content) with
      | some d =>
        rw [Option.getD_some]
        exact Or.inl (acceptDesc_spec h3)
      | none =>
        rw [Option.getD_none]
        exact Or.inr rfl

theorem extract_description_ne_empty (oracle : RegexOracle)
    (content : String) : extract_description oracle content ≠ "" := by
  rcases extract_description_spec oracle content with ⟨hne, -⟩ | heq
  · exact hne
  · rw [heq]
    exact descPlaceholder_ne_empty

theorem dropTrailingChar_ne_empty {c a : Char} {rest : List Char}
    {s : String} (hs : s.data = a :: rest) (ha : (a == c) = false) :
    dropTrailingChar c s ≠ "" := by
  rw [string_ne_empty_iff_data]
  unfold dropTrailingChar
  intro hc
  have h1 : s.data.reverse.dropWhile (fun x => x == c) = [] := by
    have := congrArg List.reverse hc
    simpa using this
  have h2 := List.dropWhile_eq_nil_iff.mp h1 a (by
    rw [List.mem_reverse, hs]
    exact List.mem_cons_self ..)
  rw [ha] at h2
  cases h2

theorem header_prototype_ne_empty {whole : String}
    (hws : wholeShape whole = true) :
    dropTrailingChar ';' (strTrim whole) ≠ "" := by
  unfold wholeShape at hws
  cases heq : (strTrim whole).data with
  | nil => rw [heq] at hws; cases hws
  | cons c rest =>
    rw [heq] at hws
    have hc : (c == ';') = false := by
      cases hcc : c == ';'
      · rfl
      · exfalso
        have hcs : c = ';' := (beq_iff_eq ..).mp hcc
        rw [hcs] at hws
        have hid : identStart ';' = true := hws
        exact absurd hid (by decide)
    exact dropTrailingChar_ne_empty heq hc

/-! ## Parse inversion -/

theorem parse_ok_inv {cfg : ParserCfg} {oracle : RegexOracle} {fs : FsTree}
    {cat : LibraryMetadata} (h : parse cfg oracle fs = Except.ok cat) :
    ∃ cats st, discover_categories cfg fs = Except.ok cats ∧
      parseFiles cfg oracle fs = Except.ok st ∧
      cat.functions = (manualFold st (load_manuals oracle fs)).functions ∧
      cat.order = (manualFold st (load_manuals oracle fs)).order := by
  unfold parse at h
  cases hd : discover_categories cfg fs with
  | error u => rw [hd] at h; cases h
  | ok cats =>
    rw [hd] at h
    cases hp : parseFiles cfg oracle fs with
    | error u => rw [hp] at h; cases h
    | ok st =>
      rw [hp] at h
      cases h
      exact ⟨cats, st, rfl, rfl, rfl, rfl⟩

/-! ## Tag-classifier lemmas -/

def difficultyTags : List String := ["basic", "intermediate", "advanced"]

def isDifficulty (t : String) : Bool := difficultyTags.contains t

/-- The difficulty rule as the specification words it, evaluated on a
record's final tag set. -/
def claimDifficulty (tags : List String) : String :=
  if tags.contains "recursion" || tags.contains "threading" then "advanced"
  else if tags.contains "allocation" || tags.contains "data_structure" then
    "intermediate"
  else "basic"

theorem mem_tagIf {x t : String} {b : Bool} :
    x ∈ tagIf b t ↔ b = true ∧ x = t := by
  unfold tagIf
  cases b <;> simp

theorem tagIf_subset {b : Bool} {t : String} {s : List String}
    (h : t ∈ s) : tagIf b t ⊆ s := by
  unfold tagIf
  cases b
  · simp
  · simpa using h

theorem generator_baseTags_mem {n c x : String}
    (h : x ∈ Generator.baseTags n c) :
    x ∈ ["string", "memory", "validation", "conversion", "output", "input",
      "linked_list", "allocation", "cleanup", "iteration"] := by
  have hsub : Generator.baseTags n c ⊆ ["string", "memory", "validation",
      "conversion", "output", "input", "linked_list", "allocation",
      "cleanup", "iteration"] := by
    unfold Generator.baseTags
    simp only [List.append_subset]
    repeat' apply And.intro
    all_goals exact tagIf_subset (by decide)
  exact hsub h

theorem parserSrc_baseTags_mem {n c x : String}
    (h : x ∈ ParserSrc.baseTags n c) :
    x ∈ ["string", "memory", "validation", "conversion", "output", "input",
      "linked_list", "queue", "vector", "matrix", "sorting", "searching",
      "data_structure", "graphics", "rendering", "memory_management",
      "allocation", "cleanup", "iteration", "recursion", "minilibx",
      "threading"] := by
  have hsub : ParserSrc.baseTags n c ⊆ ["string", "memory", "validation",
      "conversion", "output", "input", "linked_list", "queue", "vector",
      "matrix", "sorting", "searching", "data_structure", "graphics",
      "rendering", "memory_management", "allocation", "cleanup",
      "iteration", "recursion", "minilibx", "threading"] := by
    unfold ParserSrc.baseTags
    simp only [List.append_subset]
    repeat' apply And.intro
    all_goals exact tagIf_subset (by decide)
  exact hsub h

theorem generator_baseTags_not_difficulty {n c x : String}
    (h : x ∈ Generator.baseTags n c) : isDifficulty x = false := by
  have := generator_baseTags_mem h
  fin_cases this <;> decide

theorem parserSrc_baseTags_not_difficulty {n c x : String}
    (h : x ∈ ParserSrc.baseTags n c) : isDifficulty x = false := by
  have := parserSrc_baseTags_mem h
  fin_cases this <;> decide

theorem filter_of_all_false {p : String → Bool} :
    ∀ {l : List String}, (∀ x ∈ l, p x = false) → l.filter p = [] := by
  intro l h
  rw [List.filter_eq_nil_iff]
  intro a ha
  rw [h a ha]
  exact Bool.false_ne_true

theorem contains_append_single {l : List String} {d x : String}
    (h : x ≠ d) : (l ++ [d]).contains x = l.contains x := by
  rw [contains_append]
  have : ([d].contains x) = false := contains_false_iff.mpr (by simp [h])
  rw [this, Bool.or_false]

theorem claimDifficulty_append {B : List String} {d : String}
    (h1 : d ≠ "recursion") (h2 : d ≠ "threading") (h3 : d ≠ "allocation")
    (h4 : d ≠ "data_structure") :
    claimDifficulty (B ++ [d]) = claimDifficulty B := by
  unfold claimDifficulty
  rw [contains_append_single (Ne.symm h1), contains_append_single
    (Ne.symm h2), contains_append_single (Ne.symm h3),
    contains_append_single (Ne.symm h4)]

theorem tags_spec_of_base (B : List String) (d : String)
    (hBd : ∀ x ∈ B, isDifficulty x = false)
    (hd : isDifficulty d = true)
    (hclaim : claimDifficulty (B ++ [d]) = d) :
    (B ++ [d]).filter isDifficulty = [claimDifficulty (B ++ [d])] ∧
    (B ++ [d]).getLast? = some (claimDifficulty (B ++ [d])) := by
  rw [hclaim]
  constructor
  · rw [List.filter_append, filter_of_all_false hBd]
    simp [List.filter, hd]
  · exact List.getLast?_concat _

theorem generator_base_not_contains {n c : String} (x : String)
    (hx : x ∉ (["string", "memory", "validation", "conversion", "output",
      "input", "linked_list", "allocation", "cleanup", "iteration"] :
      List String)) :
    (Generator.baseTags n c).contains x = false :=
  contains_false_iff.mpr (fun hm => hx (generator_baseTags_mem hm))

theorem parserSrc_base_not_contains {n c : String} (x : String)
    (hx : x ∉ (["string", "memory", "validation", "conversion", "output",
      "input", "linked_list", "queue", "vector", "matrix", "sorting",
      "searching", "data_structure", "graphics", "rendering",
      "memory_management", "allocation", "cleanup", "iteration",
      "recursion", "minilibx", "threading"] : List String)) :
    (ParserSrc.baseTags n c).contains x = false :=
  contains_false_iff.mpr (fun hm => hx (parserSrc_baseTags_mem hm))

/-! ## Claim theorems -/

/-- A trivial regex oracle: no pattern ever matches, no JSON parses. -/
def noneOracle : RegexOracle :=
  { findProto1 := fun _ _ => none
    findProto2 := fun _ _ => none
    findProto3 := fun _ _ => none
    findDesc1 := fun _ => none
    findDesc2 := fun _ => none
    findDesc3 := fun _ => none
    headerCaptures := fun _ => []
    parseJson := fun _ => none
    toHtml := fun s => s }

def cfgDefault : ParserCfg := { source_dir := "src", libftIsDir := false }

def emptyFs : FsTree :=
  { walkEntries := [], rootIsDir := false, rootReadable := true,
    rootSubdirs := [], manualFiles := [] }

def catEmpty : LibraryMetadata :=
  { name := "libft", version := "1.0.0",
    description := "42 School C Library - Extended standard library functions"
    author := "dlesieur", categories := [], functions := [], order := [] }

/-- C1: every catalog `parse` produces has a duplicate-free function
mapping, and `order` contains exactly the key set of that mapping, each
name exactly once. -/
theorem C1_catalog_order_exact (cfg : ParserCfg) (oracle : RegexOracle)
    (fs : FsTree) (cat : LibraryMetadata)
    (h : parse cfg oracle fs = Except.ok cat) :
    (fnKeys cat.functions).Nodup ∧ cat.order.Nodup ∧
      ∀ n, n ∈ fnKeys cat.functions ↔ n ∈ cat.order := by
  rcases parse_ok_inv h with ⟨cats, st, -, hp, hfn, hord⟩
  have hp' : fileFold cfg oracle { functions := [], order := [] }
      fs.walkEntries = Except.ok st := hp
  have hst : StInv st := fileFold_inv _ _ _ stInv_init hp'
  have hfinal : StInv (manualFold st (load_manuals oracle fs)) :=
    manualFold_inv _ _ hst
  rw [hfn, hord]
  exact hfinal

/-- Witness for C1 at a concrete (empty) tree. -/
theorem C1_witness :
    parse cfgDefault noneOracle emptyFs = Except.ok catEmpty ∧
    ((fnKeys catEmpty.functions).Nodup ∧ catEmpty.order.Nodup ∧
      ∀ n, n ∈ fnKeys catEmpty.functions ↔ n ∈ catEmpty.order) :=
  ⟨rfl, C1_catalog_order_exact cfgDefault noneOracle emptyFs catEmpty rfl⟩

/-- C4: both copies of the tag generator append exactly one difficulty tag,
in last position, and it is the one the spec's rule ("advanced" on a
recursion/threading marker, else "intermediate" on an
allocation/data-structure marker, else "basic") picks from the record's
tag set. -/
theorem C4_difficulty_rule (name content : String) :
    (Generator.generate_tags name content).filter isDifficulty =
      [claimDifficulty (Generator.generate_tags name content)] ∧
    (Generator.generate_tags name content).getLast? =
      some (claimDifficulty (Generator.generate_tags name content)) ∧
    (ParserSrc.generate_tags name content).filter isDifficulty =
      [claimDifficulty (ParserSrc.generate_tags name content)] ∧
    (ParserSrc.generate_tags name content).getLast? =
      some (claimDifficulty (ParserSrc.generate_tags name content)) := by
  have hG : Generator.generate_tags name content =
      Generator.baseTags name content ++
        [if (Generator.baseTags name content).contains "allocation" then
          "intermediate" else "basic"] := rfl
  have hP : ParserSrc.generate_tags name content =
      ParserSrc.baseTags name content ++
        [if (ParserSrc.baseTags name content).contains "recursion" ||
            (ParserSrc.baseTags name content).contains "threading" then
          "advanced"
        else if (ParserSrc.baseTags name content).contains "allocation" ||
            (ParserSrc.baseTags name content).contains "data_structure" then
          "intermediate"
        else "basic"] := rfl
  have hGd : (if (Generator.baseTags name content).contains "allocation"
      then "intermediate" else "basic") = "intermediate" ∨
      (if (Generator.baseTags name content).contains "allocation"
      then "intermediate" else "basic") = "basic" := by
    cases (Generator.baseTags name content).contains "allocation" <;> simp
  have hGspec := tags_spec_of_base
    (Generator.baseTags name content)
    (if (Generator.baseTags name content).contains "allocation"
      then "intermediate" else "basic")
    (fun x hx => generator_baseTags_not_difficulty hx)
    (by rcases hGd with h | h <;> rw [h] <;> decide)
    (by
      rw [claimDifficulty_append
        (by rcases hGd with h | h <;> rw [h] <;> decide)
        (by rcases hGd with h | h <;> rw [h] <;> decide)
        (by rcases hGd with h | h <;> rw [h] <;> decide)
        (by rcases hGd with h | h <;> rw [h] <;> decide)]
      unfold claimDifficulty
      rw [generator_base_not_contains "recursion" (by decide),
        generator_base_not_contains "threading" (by decide),
        generator_base_not_contains "data_structure" (by decide)]
      simp)
  have hPdef : (if (ParserSrc.baseTags name content).contains "recursion" ||
      (ParserSrc.baseTags name content).contains "threading" then "advanced"
      else if (ParserSrc.baseTags name content).contains "allocation" ||
        (ParserSrc.baseTags name content).contains "data_structure" then
        "intermediate"
      else "basic") = claimDifficulty (ParserSrc.baseTags name content) :=
    rfl
  have hPd : claimDifficulty (ParserSrc.baseTags name content) =
      "advanced" ∨
      claimDifficulty (ParserSrc.baseTags name content) = "intermediate" ∨
      claimDifficulty (ParserSrc.baseTags name content) = "basic" := by
    unfold claimDifficulty
    cases ((ParserSrc.baseTags name content).contains "recursion" ||
      (ParserSrc.baseTags name content).contains "threading")
    · cases ((ParserSrc.baseTags name content).contains "allocation" ||
        (ParserSrc.baseTags name content).contains "data_structure") <;>
        simp
    · simp
  have hPspec := tags_spec_of_base
    (ParserSrc.baseTags name content)
    (claimDifficulty (ParserSrc.baseTags name content))
    (fun x hx => parserSrc_baseTags_not_difficulty hx)
    (by rcases hPd with h | h | h <;> rw [h] <;> decide)
    (claimDifficulty_append
      (by rcases hPd with h | h | h <;> rw [h] <;> decide)
      (by rcases hPd with h | h | h <;> rw [h] <;> decide)
      (by rcases hPd with h | h | h <;> rw [h] <;> decide)
      (by rcases hPd with h | h | h <;> rw [h] <;> decide))
  rw [hG, hP, hPdef]
  exact ⟨hGspec.1, hGspec.2, hPspec.1, hPspec.2⟩

/-- C6: a name's position in `order` is fixed at first insertion: the
file-walk order is a prefix of the final order with indices unchanged, and
applying a manual override for a name already in the order leaves the
order untouched (while replacing the record). -/
theorem C6_order_stability (cfg : ParserCfg) (oracle : RegexOracle)
    (fs : FsTree) (st : PState) (cat : LibraryMetadata)
    (hfiles : parseFiles cfg oracle fs = Except.ok st)
    (hcat : parse cfg oracle fs = Except.ok cat) :
    st.order <+: cat.order ∧
    (∀ n, n ∈ st.order → List.indexOf n cat.order = List.indexOf n st.order)
    ∧ (∀ (st2 : PState) (name : String) (meta : FunctionMetadata),
        name ∈ st2.order →
        (merge_manual_step st2 (name, meta)).order = st2.order ∧
        List.lookup name (merge_manual_step st2 (name, meta)).functions =
          some (merge_manual_fix meta)) := by
  rcases parse_ok_inv hcat with ⟨cats, st', -, hp, -, hord⟩
  rw [hfiles] at hp
  injection hp with hst
  subst hst
  have hpre : st.order <+: cat.order := by
    rw [hord]
    exact manualFold_order_grows _ _
  refine ⟨hpre, ?_, ?_⟩
  · intro n hn
    obtain ⟨t, ht⟩ := hpre
    rw [← ht, List.indexOf_append_of_mem hn]
  · intro st2 name meta hmem
    refine ⟨merge_manual_step_order_stable meta hmem, ?_⟩
    rw [merge_manual_step_eq]
    exact recordNew_lookup_self ..

/-- Witness for C6 at a concrete (empty) tree. -/
theorem C6_witness :
    parseFiles cfgDefault noneOracle emptyFs =
      Except.ok { functions := [], order := [] } ∧
    parse cfgDefault noneOracle emptyFs = Except.ok catEmpty ∧
    (({ functions := [], order := [] } : PState).order <+: catEmpty.order ∧
      (∀ n, n ∈ ({ functions := [], order := [] } : PState).order →
        List.indexOf n catEmpty.order =
          List.indexOf n ({ functions := [], order := [] } : PState).order)
      ∧ (∀ (st2 : PState) (name : String) (meta : FunctionMetadata),
          name ∈ st2.order →
          (merge_manual_step st2 (name, meta)).order = st2.order ∧
          List.lookup name (merge_manual_step st2 (name, meta)).functions =
            some (merge_manual_fix meta))) :=
  ⟨rfl, rfl, C6_order_stability cfgDefault noneOracle emptyFs
    { functions := [], order := [] } catEmpty rfl rfl⟩

/-- C10: under the header-regex contract, the declaration fallback only ever
adds names starting with `ft_`: any key or order entry of the state after
`parse_header_file` is either inherited or `ft_`-prefixed. -/
theorem C10_header_only_ft (cfg : ParserCfg) (oracle : RegexOracle)
    (hwf : HeaderOracleWF oracle) (path content : String) (st : PState)
    (n : String) :
    (n ∈ fnKeys (parse_header_file cfg oracle path content st).functions →
      n ∈ fnKeys st.functions ∨ strStartsWith n "ft_" = true) ∧
    (n ∈ (parse_header_file cfg oracle path content st).order →
      n ∈ st.order ∨ strStartsWith n "ft_" = true) := by
  have hlang : ∀ cap ∈ oracle.headerCaptures content,
      strStartsWith (cap : String × String).2 "ft_" = true := by
    intro cap hcap
    have := (hwf content cap hcap).1
    unfold grp1Lang at this
    rw [Bool.and_eq_true, Bool.and_eq_true] at this
    exact this.1.1
  constructor
  · intro h
    rcases headerFold_keys_new _ _ _ h with h' | ⟨cap, hcap, rfl⟩
    · exact Or.inl h'
    · exact Or.inr (hlang cap hcap)
  · intro h
    rcases headerFold_order_new _ _ _ h with h' | ⟨cap, hcap, rfl⟩
    · exact Or.inl h'
    · exact Or.inr (hlang cap hcap)

/-- A concrete oracle whose header regex yields one `ft_x` declaration. -/
def oracleC10 : RegexOracle :=
  { noneOracle with
    headerCaptures := fun _ => [("int ft_x(void);", "ft_x")] }

theorem oracleC10_wf : HeaderOracleWF oracleC10 := by
  intro content cap hcap
  simp only [oracleC10, List.mem_singleton] at hcap
  subst hcap
  exact ⟨by decide, by decide⟩

/-- Witness for C10 at a concrete oracle and state. -/
theorem C10_witness :
    HeaderOracleWF oracleC10 ∧
    (("ft_x" ∈ fnKeys (parse_header_file cfgDefault oracleC10 "src/a.h"
        "int ft_x(void);" { functions := [], order := [] }).functions →
      "ft_x" ∈ fnKeys ({ functions := [], order := [] } : PState).functions
        ∨ strStartsWith "ft_x" "ft_" = true) ∧
    ("ft_x" ∈ (parse_header_file cfgDefault oracleC10 "src/a.h"
        "int ft_x(void);" { functions := [], order := [] }).order →
      "ft_x" ∈ ({ functions := [], order := [] } : PState).order ∨
        strStartsWith "ft_x" "ft_" = true)) :=
  ⟨oracleC10_wf, C10_header_only_ft cfgDefault oracleC10 oracleC10_wf
    "src/a.h" "int ft_x(void);" { functions := [], order := [] } "ft_x"⟩

/-! ## Projection helpers for concrete catalogs -/

def protoOf (r : Except Unit LibraryMetadata) (n : String) : Option String :=
  match r with
  | Except.ok cat => (List.lookup n cat.functions).map (fun m => m.prototype)
  | Except.error _ => none

def categoryOf (r : Except Unit LibraryMetadata) (n : String) :
    Option String :=
  match r with
  | Except.ok cat => (List.lookup n cat.functions).map (fun m => m.category)
  | Except.error _ => none

def keysOf (r : Except Unit LibraryMetadata) : Option (List String) :=
  match r with
  | Except.ok cat => some (fnKeys cat.functions)
  | Except.error _ => none

def catOrderOf (r : Except Unit LibraryMetadata) : Option (List String) :=
  match r with
  | Except.ok cat => some cat.order
  | Except.error _ => none

/-! ## C2: precedence -/

/-- Oracle matching what the real regexes do on the C2 contents: the header
declares `ft_foo`, the implementation file defines it differently. -/
def oracleC2 : RegexOracle :=
  { noneOracle with
    findProto1 := fun n s =>
      if n == "ft_foo" && s == "long ft_foo(long x) \x7b\n\x7d" then
        some "long ft_foo(long x) \x7b"
      else none
    headerCaptures := fun s =>
      if s == "int ft_foo(int x);\n" then [("int ft_foo(int x);", "ft_foo")]
      else [] }

/-- `ft_foo` is declared in a header that the walk meets before the
implementation file `ft_foo.c`. -/
def fsC2 : FsTree :=
  { walkEntries :=
      [{ path := "src/libft.h", isFile := true,
         content := some "int ft_foo(int x);\n" },
       { path := "src/strings/ft_foo.c", isFile := true,
         content := some "long ft_foo(long x) \x7b\n\x7d" }]
    rootIsDir := true, rootReadable := true, rootSubdirs := [],
    manualFiles := [] }

/-- C2 counterexample: a name with both a header declaration and an
implementation file (no override) whose final record is the
declaration-derived one, because the header was walked first — the
implementation-derived prototype differs. -/
theorem C2_counterexample :
    protoOf (parse cfgDefault oracleC2 fsC2) "ft_foo" =
      some "int ft_foo(int x)" ∧
    extract_function_prototype oracleC2 "long ft_foo(long x) \x7b\n\x7d"
      "ft_foo" = "long ft_foo(long x)" ∧
    ("int ft_foo(int x)" : String) ≠ "long ft_foo(long x)" :=
  ⟨by decide, by decide, by decide⟩

/-- C2 amended: a manual override always wins (the final record is the
override after the category fill-ins), and within the file walk the first
file of either kind to introduce a name wins — an existing binding is
never replaced by a later file. -/
theorem C2_amended_precedence :
    (∀ (cfg : ParserCfg) (oracle : RegexOracle) (fs : FsTree)
      (cat : LibraryMetadata) (name : String) (meta : FunctionMetadata),
      parse cfg oracle fs = Except.ok cat →
      (name, meta) ∈ load_manuals oracle fs →
      List.lookup name cat.functions = some (merge_manual_fix meta)) ∧
    (∀ (cfg : ParserCfg) (oracle : RegexOracle) (st : PState)
      (l : List FsFile) (st' : PState) (n : String) (v : FunctionMetadata),
      fileFold cfg oracle st l = Except.ok st' →
      List.lookup n st.functions = some v →
      List.lookup n st'.functions = some v) := by
  constructor
  · intro cfg oracle fs cat name meta hcat hmem
    rcases parse_ok_inv hcat with ⟨cats, st, -, -, hfn, -⟩
    rw [hfn]
    exact manualFold_lookup_of_mem _ _ _ _
      (load_manuals_keys_nodup oracle fs) hmem
  · intro cfg oracle st l st' n v hfold hl
    exact fileFold_lookup_preserved _ _ _ _ _ hfold hl

def metaC2 : FunctionMetadata :=
  { name := "ft_m", category := "x", category_path := "", tags := [],
    prototype := "", description := "", parameters := [],
    return_value := "", examples := [], complexity := none, notes := [],
    see_also := [], updated_at := none, author_role := none, related := [],
    manual_path := none, manual_html := none }

def metaC2' : FunctionMetadata := { metaC2 with category_path := "x" }

def oracleC2m : RegexOracle :=
  { noneOracle with
    parseJson := fun s => if s == "J" then some metaC2 else none }

def mfC2 : ManualFile :=
  { path := "src/docs/ft_m.json", content := some "J",
    docRead := fun _ => none }

def fsC2m : FsTree :=
  { walkEntries := [], rootIsDir := false, rootReadable := true,
    rootSubdirs := [], manualFiles := [mfC2] }

def catC2m : LibraryMetadata :=
  { catEmpty with functions := [("ft_m", metaC2')], order := ["ft_m"] }

/-- Witness for the amended C2 at a concrete override and a concrete
file-walk state. -/
theorem C2_witness :
    (parse cfgDefault oracleC2m fsC2m = Except.ok catC2m ∧
      ("ft_m", metaC2') ∈ load_manuals oracleC2m fsC2m ∧
      List.lookup "ft_m" catC2m.functions =
        some (merge_manual_fix metaC2')) ∧
    (fileFold cfgDefault noneOracle
        { functions := [("ft_m", metaC2)], order := ["ft_m"] } [] =
        Except.ok { functions := [("ft_m", metaC2)], order := ["ft_m"] } ∧
      List.lookup "ft_m"
        ({ functions := [("ft_m", metaC2)], order := ["ft_m"] } :
          PState).functions = some metaC2) :=
  ⟨⟨rfl, by decide,
    C2_amended_precedence.1 cfgDefault oracleC2m fsC2m catC2m "ft_m"
      metaC2' rfl (by decide)⟩,
   ⟨rfl,
    C2_amended_precedence.2 cfgDefault noneOracle
      { functions := [("ft_m", metaC2)], order := ["ft_m"] } []
      { functions := [("ft_m", metaC2)], order := ["ft_m"] } "ft_m" metaC2
      rfl (by decide)⟩⟩

/-! ## C3: category consistency -/

def metaC3 : FunctionMetadata :=
  { name := "ft_z", category := "", category_path := "", tags := [],
    prototype := "", description := "", parameters := [],
    return_value := "", examples := [], complexity := none, notes := [],
    see_also := [], updated_at := none, author_role := none, related := [],
    manual_path := none, manual_html := none }

def oracleC3 : RegexOracle :=
  { noneOracle with
    parseJson := fun s => if s == "J" then some metaC3 else none }

def mfC3 : ManualFile :=
  { path := "src/docs/ft_z.json", content := some "J",
    docRead := fun _ => none }

def fsC3 : FsTree :=
  { walkEntries := [], rootIsDir := false, rootReadable := true,
    rootSubdirs := [], manualFiles := [mfC3] }

/-- C3 counterexample: a manual override record with both `category` and
`category_path` empty is kept as loaded with an empty `category` (the
fill-ins are guarded on the other field being non-empty), and the final
catalog record still has an empty `category` — `category` is not always
non-empty. -/
theorem C3_counterexample :
    (List.lookup "ft_z" (load_manuals oracleC3 fsC3)).map
      (fun m => m.category) = some "" ∧
    categoryOf (parse cfgDefault oracleC3 fsC3) "ft_z" = some "" :=
  ⟨by decide, by decide⟩

/-- C3 amended: for records derived from implementation and header files
(whose category fields come from `extract_category_from_path` and
`extract_category_path_from_path`), `category` is non-empty,
`category_path` is non-empty, and the first `/`-segment of `category_path`
is `category`; manual override records are exempt. Paths are the walk's
own (no parent-directory components). -/
theorem C3_amended_category (cfg : ParserCfg) (oracle : RegexOracle)
    (path content filename fname whole : String)
    (h : ".." ∉ pathComponents path) :
    ((parse_c_file_meta cfg oracle path content filename).category ≠ "" ∧
      (parse_c_file_meta cfg oracle path content filename).category_path ≠
        "" ∧
      firstSegment
          ((parse_c_file_meta cfg oracle path content
            filename).category_path) =
        (parse_c_file_meta cfg oracle path content filename).category) ∧
    ((header_meta cfg oracle path content fname whole).category ≠ "" ∧
      (header_meta cfg oracle path content fname whole).category_path ≠ ""
      ∧ firstSegment
          ((header_meta cfg oracle path content fname whole).category_path)
        = (header_meta cfg oracle path content fname whole).category) := by
  have hspec := extract_category_spec cfg path h
  exact ⟨⟨hspec.1, hspec.2.1, hspec.2.2⟩, ⟨hspec.1, hspec.2.1, hspec.2.2⟩⟩

/-- Witness for the amended C3 at a concrete path. -/
theorem C3_witness :
    (".." ∉ pathComponents "src/strings/ft_a.c") ∧
    ((parse_c_file_meta cfgDefault noneOracle "src/strings/ft_a.c" "x"
        "ft_a").category ≠ "" ∧
      (parse_c_file_meta cfgDefault noneOracle "src/strings/ft_a.c" "x"
        "ft_a").category_path ≠ "" ∧
      firstSegment ((parse_c_file_meta cfgDefault noneOracle
          "src/strings/ft_a.c" "x" "ft_a").category_path) =
        (parse_c_file_meta cfgDefault noneOracle "src/strings/ft_a.c" "x"
          "ft_a").category) :=
  ⟨by decide,
   (C3_amended_category cfgDefault noneOracle "src/strings/ft_a.c" "x"
     "ft_a" "f" "w" (by decide)).1⟩

/-! ## C5: error recovery -/

def fsC5 : FsTree :=
  { walkEntries :=
      [{ path := "src/libft.h", isFile := true, content := none }]
    rootIsDir := true, rootReadable := true, rootSubdirs := [],
    manualFiles := [] }

/-- C5 counterexample: with a perfectly valid, readable root, an I/O error
reading a single header file aborts the whole run (the `?` in
`parse_header_file`'s read propagates out of `parse`). -/
theorem C5_counterexample :
    fsC5.rootIsDir = true ∧ fsC5.rootReadable = true ∧
    parse cfgDefault noneOracle fsC5 = Except.error () :=
  ⟨rfl, rfl, rfl⟩

/-- C5 amended: when the categories root is readable and every header file
read succeeds, the pipeline always completes — failed implementation-file
and override-file reads are skipped. -/
theorem C5_amended_recovery (cfg : ParserCfg) (oracle : RegexOracle)
    (fs : FsTree) (hroot : fs.rootIsDir = true → fs.rootReadable = true)
    (hheaders : ∀ e ∈ fs.walkEntries, e.isFile = true →
      extension e.path = some "h" → e.content ≠ none) :
    ∃ cat, parse cfg oracle fs = Except.ok cat := by
  have hd : ∃ cats, discover_categories cfg fs = Except.ok cats := by
    unfold discover_categories
    cases hr : fs.rootIsDir
    · simp
    · rw [hroot hr]
      simp
  obtain ⟨cats, hd⟩ := hd
  obtain ⟨st, hfold⟩ := fileFold_total fs.walkEntries
    { functions := [], order := [] } hheaders
  have hpf : parseFiles cfg oracle fs = Except.ok st := hfold
  have hres : parse cfg oracle fs = Except.ok
      { name := "libft", version := "1.0.0",
        description :=
          "42 School C Library - Extended standard library functions",
        author := "dlesieur", categories := cats,
        functions := (manualFold st (load_manuals oracle fs)).functions,
        order := (manualFold st (load_manuals oracle fs)).order } := by
    unfold parse
    rw [hd, hpf]
  exact ⟨_, hres⟩

def mfC5w : ManualFile :=
  { path := "src/docs/x.json", content := none, docRead := fun _ => none }

def fsC5w : FsTree :=
  { walkEntries :=
      [{ path := "src/ft_a.c", isFile := true, content := none }]
    rootIsDir := true, rootReadable := true, rootSubdirs := [],
    manualFiles := [mfC5w] }

/-- Witness for the amended C5: unreadable implementation and override
files are skipped and the run completes. -/
theorem C5_witness :
    (fsC5w.rootIsDir = true → fsC5w.rootReadable = true) ∧
    (∀ e ∈ fsC5w.walkEntries, e.isFile = true →
      extension e.path = some "h" → e.content ≠ none) ∧
    ∃ cat, parse cfgDefault noneOracle fsC5w = Except.ok cat :=
  ⟨fun _ => rfl, by decide,
   C5_amended_recovery cfgDefault noneOracle fsC5w (fun _ => rfl)
     (by decide)⟩

/-! ## C7: entry-point skip -/

def fsC7 : FsTree :=
  { walkEntries :=
      [{ path := "src/domain.c", isFile := true,
         content := some "int domain(void) \x7b return 0; \x7d" }]
    rootIsDir := true, rootReadable := true, rootSubdirs := [],
    manualFiles := [] }

/-- C7 counterexample: `domain.c` has base name `domain`, not the entry
point, yet its full path contains the substring `"main.c"`, so the walk
skips it and no record is produced — the skip is by path substring, not by
base name. -/
theorem C7_counterexample :
    strContains "src/domain.c" "main.c" = true ∧
    keysOf (parse cfgDefault noneOracle fsC7) = some [] ∧
    catOrderOf (parse cfgDefault noneOracle fsC7) = some [] :=
  ⟨by decide, by decide, by decide⟩

/-- C7 amended: a `.c` entry is skipped exactly when its lossy path
contains the substring `"main.c"`: such an entry never changes the state,
and every readable `.c` entry whose path avoids the substring ends up with
its stem among the catalog keys. -/
theorem C7_amended_skip :
    (∀ (cfg : ParserCfg) (oracle : RegexOracle) (st : PState) (e : FsFile),
      extension e.path = some "c" → strContains e.path "main.c" = true →
      fileStep cfg oracle st e = Except.ok st) ∧
    (∀ (cfg : ParserCfg) (oracle : RegexOracle) (fs : FsTree)
      (cat : LibraryMetadata) (e : FsFile) (content : String),
      parse cfg oracle fs = Except.ok cat → e ∈ fs.walkEntries →
      e.isFile = true → extension e.path = some "c" →
      strContains e.path "main.c" = false → e.content = some content →
      ((fileStemOpt e.path).getD "unknown") ∈ fnKeys cat.functions) := by
  constructor
  · intro cfg oracle st e hext hm
    cases hf : e.isFile
    · simp [fileStep, hf]
    · simp [fileStep, hf, hext, hm]
  · intro cfg oracle fs cat e content hcat hmem hf hext hm hcont
    rcases parse_ok_inv hcat with ⟨cats, st, -, hp, hfn, -⟩
    have hp' : fileFold cfg oracle { functions := [], order := [] }
        fs.walkEntries = Except.ok st := hp
    have hc := fileFold_c_processed fs.walkEntries _ _ e content hmem hf
      hext hm hcont hp'
    rw [hfn]
    exact mem_fnKeys.mpr (manualFold_contains_mono _ _ _ hc)

def fsC7w : FsTree :=
  { walkEntries :=
      [{ path := "src/strings/ft_a.c", isFile := true,
         content := some "x" }]
    rootIsDir := true, rootReadable := true, rootSubdirs := [],
    manualFiles := [] }

def catC7w : LibraryMetadata :=
  { catEmpty with
    functions := [("ft_a",
      parse_c_file_meta cfgDefault noneOracle "src/strings/ft_a.c" "x"
        "ft_a")]
    order := ["ft_a"] }

/-- Witness for the amended C7: the skip of a `main.c`-substring path and
the processing of a normal `.c` file, both at concrete inputs. -/
theorem C7_witness :
    fileStep cfgDefault noneOracle { functions := [], order := [] }
      { path := "src/domain.c", isFile := true,
        content := some "int domain(void) \x7b return 0; \x7d" } =
      Except.ok { functions := [], order := [] } ∧
    (parse cfgDefault noneOracle fsC7w = Except.ok catC7w ∧
      ("ft_a" : String) ∈ fnKeys catC7w.functions) :=
  ⟨C7_amended_skip.1 cfgDefault noneOracle
     { functions := [], order := [] }
     { path := "src/domain.c", isFile := true,
       content := some "int domain(void) \x7b return 0; \x7d" }
     (by decide) (by decide),
   ⟨rfl,
    C7_amended_skip.2 cfgDefault noneOracle fsC7w catC7w
      { path := "src/strings/ft_a.c", isFile := true, content := some "x" }
      "x" rfl (List.mem_cons_self ..) rfl (by decide) (by decide) rfl⟩⟩

/-! ## C8: declared-but-not-implemented functions -/

def oracleC8 : RegexOracle :=
  { noneOracle with
    headerCaptures := fun s =>
      if s == "void ft_push(int x);\n" then
        [("void ft_push(int x);", "ft_push")]
      else [] }

def fsC8 : FsTree :=
  { walkEntries :=
      [{ path := "src/stack/libft.h", isFile := true,
         content := some "void ft_push(int x);\n" }]
    rootIsDir := true, rootReadable := true, rootSubdirs := [],
    manualFiles := [] }

/-- C8 counterexample: the record synthesized for a declared-only function
carries the matched declaration line as its prototype, not the placeholder
string naming the function. -/
theorem C8_counterexample :
    protoOf (parse cfgDefault oracleC8 fsC8) "ft_push" =
      some "void ft_push(int x)" ∧
    ("void ft_push(int x)" : String) ≠ protoPlaceholder "ft_push" :=
  ⟨by decide, by decide⟩

/-- C8 amended: a function declared in any walked header still reaches the
final catalog (key and discovery order), and a declaration of a
not-yet-recorded name yields a record whose prototype is the matched
declaration line, trimmed with trailing semicolons stripped. -/
theorem C8_amended_header_record :
    (∀ (cfg : ParserCfg) (oracle : RegexOracle) (fs : FsTree)
      (cat : LibraryMetadata) (e : FsFile) (content whole fname : String),
      parse cfg oracle fs = Except.ok cat → e ∈ fs.walkEntries →
      e.isFile = true → extension e.path = some "h" →
      e.content = some content →
      (whole, fname) ∈ oracle.headerCaptures content →
      fname ∈ fnKeys cat.functions ∧ fname ∈ cat.order) ∧
    (∀ (cfg : ParserCfg) (oracle : RegexOracle)
      (path content whole fname : String) (st : PState)
      (rest : List (String × String)),
      containsKey st.functions fname = false →
      oracle.headerCaptures content = (whole, fname) :: rest →
      List.lookup fname
          (parse_header_file cfg oracle path content st).functions =
        some (header_meta cfg oracle path content fname whole) ∧
      (header_meta cfg oracle path content fname whole).prototype =
        dropTrailingChar ';' (strTrim whole) ∧
      fname ∈ (parse_header_file cfg oracle path content st).order) := by
  constructor
  · intro cfg oracle fs cat e content whole fname hcat hmem hf hext hcont
      hcap
    rcases parse_ok_inv hcat with ⟨cats, st, -, hp, hfn, hord⟩
    have hp' : fileFold cfg oracle { functions := [], order := [] }
        fs.walkEntries = Except.ok st := hp
    have hc : containsKey st.functions fname = true :=
      fileFold_h_processed fs.walkEntries _ _ e content (whole, fname) hmem
        hf hext hcont hcap hp'
    have hfinal : containsKey
        (manualFold st (load_manuals oracle fs)).functions fname = true :=
      manualFold_contains_mono _ _ _ hc
    have hinv : StInv (manualFold st (load_manuals oracle fs)) :=
      manualFold_inv _ _ (fileFold_inv _ _ _ stInv_init hp')
    constructor
    · rw [hfn]
      exact mem_fnKeys.mpr hfinal
    · rw [hord]
      exact (hinv.2.2 fname).mp (mem_fnKeys.mpr hfinal)
  · intro cfg oracle path content whole fname st rest hc hcaps
    have h := headerFold_head_lookup cfg oracle path content whole fname st
      rest hc
    unfold parse_header_file
    rw [hcaps]
    exact ⟨h.1, rfl, h.2⟩

def catC8w : LibraryMetadata :=
  { catEmpty with
    categories := []
    functions := [("ft_push",
      header_meta cfgDefault oracleC8 "src/stack/libft.h"
        "void ft_push(int x);\n" "ft_push" "void ft_push(int x);")]
    order := ["ft_push"] }

/-- Witness for the amended C8 at the concrete declared-only function. -/
theorem C8_witness :
    (parse cfgDefault oracleC8 fsC8 = Except.ok catC8w ∧
      ("ft_push" : String) ∈ fnKeys catC8w.functions ∧
      ("ft_push" : String) ∈ catC8w.order) ∧
    (containsKey ([] : Functions) "ft_push" = false ∧
      List.lookup "ft_push"
          (parse_header_file cfgDefault oracleC8 "src/stack/libft.h"
            "void ft_push(int x);\n"
            { functions := [], order := [] }).functions =
        some (header_meta cfgDefault oracleC8 "src/stack/libft.h"
          "void ft_push(int x);\n" "ft_push" "void ft_push(int x);") ∧
      "ft_push" ∈ (parse_header_file cfgDefault oracleC8
        "src/stack/libft.h" "void ft_push(int x);\n"
        { functions := [], order := [] }).order) :=
  ⟨⟨rfl,
    (C8_amended_header_record.1 cfgDefault oracleC8 fsC8 catC8w
      { path := "src/stack/libft.h", isFile := true,
        content := some "void ft_push(int x);\n" }
      "void ft_push(int x);\n" "void ft_push(int x);" "ft_push" rfl
      (List.mem_cons_self ..) rfl (by decide) rfl (by decide)).1,
    (C8_amended_header_record.1 cfgDefault oracleC8 fsC8 catC8w
      { path := "src/stack/libft.h", isFile := true,
        content := some "void ft_push(int x);\n" }
      "void ft_push(int x);\n" "void ft_push(int x);" "ft_push" rfl
      (List.mem_cons_self ..) rfl (by decide) rfl (by decide)).2⟩,
   ⟨rfl,
    (C8_amended_header_record.2 cfgDefault oracleC8 "src/stack/libft.h"
      "void ft_push(int x);\n" "void ft_push(int x);" "ft_push"
      { functions := [], order := [] } [] rfl rfl).1,
    (C8_amended_header_record.2 cfgDefault oracleC8 "src/stack/libft.h"
      "void ft_push(int x);\n" "void ft_push(int x);" "ft_push"
      { functions := [], order := [] } [] rfl rfl).2.2⟩⟩

/-! ## C9: heuristic misses and field non-emptiness -/

def metaC9 : FunctionMetadata :=
  { name := "ft_a", category := "c", category_path := "", tags := [],
    prototype := "", description := "", parameters := [],
    return_value := "", examples := [], complexity := none, notes := [],
    see_also := [], updated_at := none, author_role := none, related := [],
    manual_path := none, manual_html := none }

def oracleC9 : RegexOracle :=
  { noneOracle with
    parseJson := fun s => if s == "J" then some metaC9 else none }

def mfC9 : ManualFile :=
  { path := "src/docs/ft_a.json", content := some "J",
    docRead := fun _ => none }

def fsC9 : FsTree :=
  { walkEntries := [], rootIsDir := false, rootReadable := true,
    rootSubdirs := [], manualFiles := [mfC9] }

/-- C9 counterexample: a manual override record with no prototype field
(serde default: the empty string) reaches the final catalog unchanged, so
not every record's prototype is non-empty. -/
theorem C9_counterexample :
    protoOf (parse cfgDefault oracleC9 fsC9) "ft_a" = some "" :=
  by decide

/-- C9 amended: prototype extraction yields either a non-empty match
strictly longer (in bytes) than the function name or the fixed placeholder
naming it; description extraction yields either a non-empty cleaned
comment longer than 10 bytes or the fixed placeholder; hence every
implementation-derived record, and (under the regex contract for the whole
match) every header-derived record, has non-empty prototype and
description — manual override records are exempt. -/
theorem C9_amended_fallbacks :
    (∀ (oracle : RegexOracle) (content funcName : String),
      (extract_function_prototype oracle content funcName ≠ "" ∧
        (extract_function_prototype oracle content funcName).utf8ByteSize >
          funcName.utf8ByteSize) ∨
      extract_function_prototype oracle content funcName =
        protoPlaceholder funcName) ∧
    (∀ (oracle : RegexOracle) (content : String),
      (extract_description oracle content ≠ "" ∧
        (extract_description oracle content).utf8ByteSize > 10) ∨
      extract_description oracle content = descPlaceholder) ∧
    (∀ (cfg : ParserCfg) (oracle : RegexOracle)
      (path content filename : String),
      (parse_c_file_meta cfg oracle path content filename).prototype ≠ ""
      ∧ (parse_c_file_meta cfg oracle path content filename).description ≠
        "") ∧
    (∀ (cfg : ParserCfg) (oracle : RegexOracle)
      (path content fname whole : String), wholeShape whole = true →
      (header_meta cfg oracle path content fname whole).prototype ≠ "" ∧
      (header_meta cfg oracle path content fname whole).description ≠ "")
    :=
  ⟨extract_function_prototype_spec,
   extract_description_spec,
   fun cfg oracle path content filename =>
     ⟨extract_function_prototype_ne_empty oracle content filename,
      extract_description_ne_empty oracle content⟩,
   fun cfg oracle path content fname whole hws =>
     ⟨header_prototype_ne_empty hws,
      extract_description_ne_empty oracle content⟩⟩

/-- Witness for the amended C9 at a concrete declaration line. -/
theorem C9_witness :
    wholeShape "void ft_push(int x);" = true ∧
    ((header_meta cfgDefault noneOracle "src/a.h" "c" "ft_p"
        "void ft_push(int x);").prototype ≠ "" ∧
      (header_meta cfgDefault noneOracle "src/a.h" "c" "ft_p"
        "void ft_push(int x);").description ≠ "") :=
  ⟨by decide,
   C9_amended_fallbacks.2.2.2 cfgDefault noneOracle "src/a.h" "c" "ft_p"
     "void ft_push(int x);" (by decide)⟩
